import Mathlib

/-! # trace_context: nested spans with a per-thread current span

A shallow embedding of `src/trace_context.cpp` (class `TraceContext`, its
nested `Data` and `Scope`, and the thread-local `current_thread_local`).

* A `std::shared_ptr<Data>` is an `Option Addr`: `none` is the null pointer.
  Shared ownership keeps a record alive for as long as anything refers to it,
  so the embedding never reclaims a record.
* `int level` is an `Int`, and `parent_->level + 1` is the mathematical sum: it
  is the value of the C++ expression as long as `parent_->level` is below
  `INT_MAX = 2147483647`, and not beyond, where the `int` overflows.  In the
  states the program can reach, the level of the `n`-th record made by
  `Scope::Scope` is at most `n` (`level_le_index`), so the two agree until
  `2^31` records have been allocated.
* A `steady_clock::time_point` is the `Int` number of ticks since the clock's
  epoch; a default-constructed time point is `0`.  Each call of
  `steady_clock::now()` is an argument `now` of the operation making the call.
* `syscall(SYS_gettid)` is the argument `tid` of the operation.
* `printf` output is dropped, apart from the last value printed by `~Scope`
  (the `parent active` flag), which `Scope.delete` returns.
-/

namespace TraceContext

/-- An address of a `Data` record: `tl t` is the record made by the initialiser
of thread `t`'s `current_thread_local`, `obj n` is the `n`-th record made by
`std::make_shared<Data>` in `Scope::Scope`. -/
inductive Addr where
  | tl (tid : Nat)
  | obj (n : Nat)
deriving DecidableEq, Repr

/-- The fields of `struct Data`. -/
structure Data where
  parent : Option Addr
  previous_thread_local : Option Addr
  label : String
  level : Int
  threadID : Nat
  startTime : Int
  endTime : Int
deriving DecidableEq, Repr

/-- The memory holding the `Data` records. -/
abbrev Heap := Addr → Option Data

/-- The constructor `Data(parent_, label_)` run on thread `tid`:
`parent(parent_), label(label_), level(parent_ ? parent_->level + 1 : -1)`,
`threadID = syscall(SYS_gettid)`; the other members are default-initialised.
The result is `none` only if `parent_` does not point to a record.  The sum
`pd.level + 1` is the sum of integers: it is what the `int` expression yields
for a parent whose level is below `INT_MAX = 2147483647`, and only then. -/
def Data.new (mem : Heap) (parent_ : Option Addr) (label_ : String) (tid : Nat) :
    Option Data :=
  match parent_ with
  | none =>
    some { parent := none, previous_thread_local := none, label := label_,
           level := -1, threadID := tid, startTime := 0, endTime := 0 }
  | some p =>
    match mem p with
    | none => none
    | some pd =>
      some { parent := some p, previous_thread_local := none, label := label_,
             level := pd.level + 1, threadID := tid, startTime := 0, endTime := 0 }

/-- The program state: the records, the number of records allocated by
`Scope::Scope` so far, every thread's `current_thread_local`, and the
`TraceContext` objects that have been constructed and not yet destroyed, each
named by its `scope.data`. -/
structure State where
  heap : Heap
  next : Nat
  current_thread_local : Nat → Option Addr
  live : List Addr

/-- The initial state.  `static inline thread_local std::shared_ptr<Data>
current_thread_local = std::make_shared<Data>(nullptr, "ThreadLocal")`: every
thread has its own instance, initialised on that thread before its first use
there, so thread `t` starts with a record of its own at `tl t`. -/
def State.init : State where
  heap := fun a =>
    match a with
    | .tl t => Data.new (fun _ => none) none "ThreadLocal" t
    | .obj _ => none
  next := 0
  current_thread_local := fun t => some (.tl t)
  live := []

/-- The constructor `Scope(parentData_, label_)` run on thread `tid`, with `now`
the value of `steady_clock::now()`.  Returns the new state and `data`. -/
def Scope.new (s : State) (tid : Nat) (parentData_ : Option Addr) (label_ : String)
    (now : Int) : Option (State × Addr) :=
  -- data(std::make_shared<Data>(parentData_, label_))
  match Data.new s.heap parentData_ label_ tid with
  | none => none
  | some d0 =>
    let data := Addr.obj s.next
    -- data->startTime = std::chrono::steady_clock::now();
    let d1 := { d0 with startTime := now }
    -- data->previous_thread_local = current_thread_local;
    let d2 := { d1 with previous_thread_local := s.current_thread_local tid }
    -- current_thread_local = data;
    some ({ heap := Function.update s.heap data (some d2)
            next := s.next + 1
            current_thread_local := Function.update s.current_thread_local tid (some data)
            live := data :: s.live }, data)

/-- The last argument of the `printf` in `~Scope`, the `parent active` flag
`p ? (p->endTime.time_since_epoch().count() ? 0 : 1) : -1` with
`p = d->parent.get()`, read in the memory `mem`. -/
def parentActive (mem : Heap) (d : Data) : Option Int :=
  match d.parent with
  | none => some (-1)
  | some p =>
    match mem p with
    | none => none
    | some pd => some (if pd.endTime ≠ 0 then 0 else 1)

/-- The destructor `~Scope()` of the scope holding `data`, run on thread `tid`,
with `now` the value of `steady_clock::now()`.  Returns the new state and the
printed `parent active` flag. -/
def Scope.delete (s : State) (tid : Nat) (data : Addr) (now : Int) :
    Option (State × Int) :=
  match s.heap data with
  | none => none
  | some d =>
    -- current_thread_local = data->previous_thread_local;
    let cur := Function.update s.current_thread_local tid d.previous_thread_local
    -- data->endTime = std::chrono::steady_clock::now();
    let d1 := { d with endTime := now }
    let heap1 := Function.update s.heap data (some d1)
    -- const auto d = data.get(); const auto p = d->parent.get(); printf(...)
    match parentActive heap1 d1 with
    | none => none
    | some k =>
      some ({ heap := heap1, next := s.next, current_thread_local := cur,
              live := s.live.filter (fun a => a ≠ data) }, k)

/-- The four public constructors of `TraceContext`. -/
inductive Ctor where
  /-- The constructor `TraceContext()`. -/
  | default
  /-- The constructor `TraceContext(std::string_view label)`. -/
  | label (l : String)
  /-- The constructor `TraceContext(const TraceContext &parent)`, with `parent`
  named by its `scope.data`. -/
  | copy (parent : Addr)
  /-- The constructor `TraceContext(const TraceContext &parent, std::string_view label)`. -/
  | copyLabel (parent : Addr) (l : String)
deriving DecidableEq, Repr

/-- Construction of a `TraceContext` on thread `tid`; returns the new state and
the new object's `scope.data`.  A `parent` argument has to be an object that is
alive, otherwise there is no such call. -/
def new (s : State) (tid : Nat) (c : Ctor) (now : Int) : Option (State × Addr) :=
  match c with
  | .default => Scope.new s tid (s.current_thread_local tid) "noname1" now
  | .label l => Scope.new s tid (s.current_thread_local tid) l now
  | .copy parent =>
    if parent ∈ s.live then Scope.new s tid (some parent) "" now else none
  | .copyLabel parent l =>
    if parent ∈ s.live then Scope.new s tid (some parent) l now else none

/-- Destruction, on thread `tid`, of the `TraceContext` whose `scope.data` is
`h`: it runs `~Scope`.  Only an object that is alive can be destroyed. -/
def delete (s : State) (tid : Nat) (h : Addr) (now : Int) : Option (State × Int) :=
  if h ∈ s.live then Scope.delete s tid h now else none

/-- One call made by the program using the class. -/
inductive Event where
  | construct (tid : Nat) (c : Ctor) (now : Int)
  | destroy (tid : Nat) (h : Addr) (now : Int)
deriving DecidableEq, Repr

/-- The thread running the call. -/
def Event.tid : Event → Nat
  | .construct tid _ _ => tid
  | .destroy tid _ _ => tid

/-- The clock value read by the call. -/
def Event.now : Event → Int
  | .construct _ _ now => now
  | .destroy _ _ now => now

/-- The state after one call. -/
def step (s : State) : Event → Option State
  | .construct tid c now => (new s tid c now).map Prod.fst
  | .destroy tid h now => (delete s tid h now).map Prod.fst

/-- The state after a sequence of calls. -/
def run (s : State) : List Event → Option State
  | [] => some s
  | e :: es =>
    match step s e with
    | none => none
    | some s1 => run s1 es

/-- The record made by the initialiser of thread `t`'s `current_thread_local`. -/
def genesis (t : Nat) : Data :=
  { parent := none, previous_thread_local := none, label := "ThreadLocal",
    level := -1, threadID := t, startTime := 0, endTime := 0 }

/-- What holds of every state the program can reach. -/
structure Inv (s : State) : Prop where
  fresh : ∀ n, s.next ≤ n → s.heap (.obj n) = none
  gen : ∀ t, s.heap (.tl t) = some (genesis t)
  live_ok : ∀ h ∈ s.live, ∃ n d, h = .obj n ∧ s.heap h = some d ∧ d.endTime = 0
  parent_ok : ∀ a d, s.heap a = some d → ∀ p, d.parent = some p →
    ∃ pd, s.heap p = some pd ∧ d.level = pd.level + 1
  cur_ok : ∀ t, ∃ a d, s.current_thread_local t = some a ∧ s.heap a = some d
  prev_ok : ∀ n d, s.heap (.obj n) = some d →
    ∃ a pd, d.previous_thread_local = some a ∧ s.heap a = some pd

/-- The scenario of three nested spans: on thread `t`, `TraceContext("A")`, then
`TraceContext("B")`, then `TraceContext("C")`, reading the clock values `n1`,
`n2`, `n3`.  Returns the final state and the three records. -/
def nestedABC (s : State) (t : Nat) (n1 n2 n3 : Int) :
    Option (State × Addr × Addr × Addr) :=
  match new s t (.label "A") n1 with
  | none => none
  | some (s1, a) =>
    match new s1 t (.label "B") n2 with
    | none => none
    | some (s2, b) =>
      match new s2 t (.label "C") n3 with
      | none => none
      | some (s3, c) => some (s3, a, b, c)

/-- The `level` of the record at `a`. -/
def levelAt (s : State) (a : Addr) : Option Int :=
  (s.heap a).map Data.level

/-- The levels of the records of "A", "B" and "C" at the end of `nestedABC`. -/
def levelsABC (s : State) (t : Nat) (n1 n2 n3 : Int) :
    Option (Option Int × Option Int × Option Int) :=
  (nestedABC s t n1 n2 n3).map fun r =>
    (levelAt r.1 r.2.1, levelAt r.1 r.2.2.1, levelAt r.1 r.2.2.2)

/-- What holds, besides `Inv`, of every state the program can reach: every
record made by `Scope::Scope` has a parent, and no level is below -1. -/
structure Rooted (s : State) : Prop where
  obj_parent : ∀ n d, s.heap (.obj n) = some d → ∃ p, d.parent = some p
  level_ge : ∀ a d, s.heap a = some d → -1 ≤ d.level

/-- The address held by `parent` of the record at `a`, if there is one. -/
def parentOf (s : State) (a : Addr) : Option Addr :=
  (s.heap a).bind Data.parent

/-- The record reached from `a` by following `parent` `k` times; `none` when
the chain of parents ends before that. -/
def climb (s : State) : Nat → Addr → Option Addr
  | 0, a => some a
  | k + 1, a => (parentOf s a).bind (climb s k)

/-! ## What one constructor or destructor call does -/

theorem data_new_spec {mem : Heap} {p : Option Addr} {l : String} {tid : Nat} {d : Data}
    (h : Data.new mem p l tid = some d) :
    d.parent = p ∧ d.previous_thread_local = none ∧ d.label = l ∧ d.threadID = tid ∧
      d.startTime = 0 ∧ d.endTime = 0 ∧ (p = none → d.level = -1) ∧
      (∀ a, p = some a → ∃ pd, mem a = some pd ∧ d.level = pd.level + 1) := by
  unfold Data.new at h
  cases p with
  | none =>
    simp only [Option.some.injEq] at h
    subst h
    simp
  | some a =>
    simp only at h
    cases hm : mem a with
    | none => simp [hm] at h
    | some pd =>
      simp only [hm, Option.some.injEq] at h
      subst h
      simp [hm]

theorem data_new_isSome (mem : Heap) (p : Option Addr) (l : String) (tid : Nat)
    (hp : ∀ a, p = some a → ∃ pd, mem a = some pd) :
    ∃ d, Data.new mem p l tid = some d := by
  unfold Data.new
  cases p with
  | none => exact ⟨_, rfl⟩
  | some a =>
    obtain ⟨pd, hpd⟩ := hp a rfl
    simp [hpd]

theorem scope_new_spec {s s1 : State} {tid : Nat} {p : Option Addr} {l : String}
    {now : Int} {a : Addr} (h : Scope.new s tid p l now = some (s1, a)) :
    ∃ d0, Data.new s.heap p l tid = some d0 ∧ a = Addr.obj s.next ∧
      s1.heap = Function.update s.heap a
        (some { d0 with startTime := now,
                        previous_thread_local := s.current_thread_local tid }) ∧
      s1.next = s.next + 1 ∧
      s1.current_thread_local = Function.update s.current_thread_local tid (some a) ∧
      s1.live = a :: s.live := by
  unfold Scope.new at h
  cases hd : Data.new s.heap p l tid with
  | none => simp [hd] at h
  | some d0 =>
    simp only [hd, Option.some.injEq, Prod.mk.injEq] at h
    obtain ⟨hs, ha⟩ := h
    subst ha
    subst hs
    exact ⟨d0, rfl, rfl, rfl, rfl, rfl, rfl⟩

theorem scope_delete_spec {s s1 : State} {tid : Nat} {a : Addr} {now k : Int}
    (h : Scope.delete s tid a now = some (s1, k)) :
    ∃ d, s.heap a = some d ∧
      s1.heap = Function.update s.heap a (some { d with endTime := now }) ∧
      s1.next = s.next ∧
      s1.current_thread_local =
        Function.update s.current_thread_local tid d.previous_thread_local ∧
      s1.live = s.live.filter (fun b => b ≠ a) ∧
      parentActive s1.heap { d with endTime := now } = some k := by
  unfold Scope.delete at h
  cases hd : s.heap a with
  | none => simp [hd] at h
  | some d =>
    refine ⟨d, rfl, ?_⟩
    simp only [hd] at h
    cases hq : parentActive (Function.update s.heap a (some { d with endTime := now }))
        { d with endTime := now } with
    | none => simp [hq] at h
    | some k1 =>
      simp only [hq, Option.some.injEq, Prod.mk.injEq] at h
      obtain ⟨hs, hk⟩ := h
      subst hs
      subst hk
      exact ⟨rfl, rfl, rfl, rfl, hq⟩

/-! ## The invariant of the reachable states -/

theorem Inv.of_init : Inv State.init where
  fresh := fun _ _ => rfl
  gen := fun _ => rfl
  live_ok := fun h hh => by simp [State.init] at hh
  parent_ok := fun a d had p hp => by
    cases a with
    | tl t =>
      have : d = genesis t := by
        have h2 : State.init.heap (.tl t) = some (genesis t) := rfl
        rw [h2] at had
        exact (Option.some.inj had).symm
      subst this
      simp [genesis] at hp
    | obj n => simp [State.init] at had
  cur_ok := fun t => ⟨.tl t, genesis t, rfl, rfl⟩
  prev_ok := fun n d had => by simp [State.init] at had

theorem Inv.ne_next {s : State} (hi : Inv s) {a : Addr} {d : Data}
    (ha : s.heap a = some d) : a ≠ .obj s.next := by
  intro h
  subst h
  rw [hi.fresh s.next le_rfl] at ha
  exact Option.noConfusion ha

theorem Inv.of_scope_new {s s1 : State} {tid : Nat} {p : Option Addr} {l : String}
    {now : Int} {a : Addr} (hi : Inv s)
    (h : Scope.new s tid p l now = some (s1, a)) : Inv s1 := by
  obtain ⟨d0, hd0, ha, hheap, hnext, hcur, hlive⟩ := scope_new_spec h
  obtain ⟨hpar, -, -, -, -, hend, -, hlev⟩ := data_new_spec hd0
  have keep : ∀ b db, s.heap b = some db → s1.heap b = some db := by
    intro b db hb
    have hne : b ≠ a := ha ▸ hi.ne_next hb
    rw [hheap, Function.update_noteq hne]
    exact hb
  have hnew := congrFun hheap a
  rw [Function.update_same] at hnew
  have old : ∀ b db, s1.heap b = some db → b ≠ a → s.heap b = some db := by
    intro b db hb hne
    rw [hheap, Function.update_noteq hne] at hb
    exact hb
  refine ⟨?_, ?_, ?_, ?_, ?_, ?_⟩
  · intro n hn
    have hne : Addr.obj n ≠ a := by
      rw [ha]
      intro hc
      injection hc with hc
      omega
    rw [hheap, Function.update_noteq hne]
    exact hi.fresh n (by omega)
  · intro t
    exact keep _ _ (hi.gen t)
  · intro h1 hh1
    rw [hlive] at hh1
    rcases List.mem_cons.mp hh1 with rfl | hmem
    · exact ⟨s.next, _, ha, hnew, hend⟩
    · obtain ⟨n, d, hn, hd, he⟩ := hi.live_ok h1 hmem
      exact ⟨n, d, hn, keep _ _ hd, he⟩
  · intro b db hb q hq
    by_cases hba : b = a
    · subst hba
      rw [hnew] at hb
      have hdb := Option.some.inj hb
      subst hdb
      simp only at hq
      rw [hpar] at hq
      obtain ⟨pd, hpd, hl⟩ := hlev q hq
      exact ⟨pd, keep _ _ hpd, hl⟩
    · obtain ⟨pd, hpd, hl⟩ := hi.parent_ok b db (old b db hb hba) q hq
      exact ⟨pd, keep _ _ hpd, hl⟩
  · intro t
    by_cases ht : t = tid
    · subst ht
      rw [hcur, Function.update_same]
      exact ⟨a, _, rfl, hnew⟩
    · rw [hcur, Function.update_noteq ht]
      obtain ⟨c, dc, hc, hdc⟩ := hi.cur_ok t
      exact ⟨c, dc, hc, keep _ _ hdc⟩
  · intro n d hd
    by_cases hna : Addr.obj n = a
    · rw [hna, hnew] at hd
      have hdb := Option.some.inj hd
      subst hdb
      obtain ⟨c, dc, hc, hdc⟩ := hi.cur_ok tid
      exact ⟨c, dc, hc, keep _ _ hdc⟩
    · obtain ⟨c, dc, hc, hdc⟩ := hi.prev_ok n d (old _ _ hd hna)
      exact ⟨c, dc, hc, keep _ _ hdc⟩

theorem Inv.of_scope_delete {s s1 : State} {tid : Nat} {a : Addr} {now k : Int}
    (hi : Inv s) (hlv : a ∈ s.live)
    (h : Scope.delete s tid a now = some (s1, k)) : Inv s1 := by
  obtain ⟨d, hd, hheap, hnext, hcur, hlive, -⟩ := scope_delete_spec h
  obtain ⟨na, -, hna, -, -⟩ := hi.live_ok a hlv
  have hnew := congrFun hheap a
  rw [Function.update_same] at hnew
  have keep : ∀ b db, s.heap b = some db → ∃ db1, s1.heap b = some db1 ∧
      db1.level = db.level ∧ db1.parent = db.parent ∧
      db1.previous_thread_local = db.previous_thread_local := by
    intro b db hb
    by_cases hba : b = a
    · subst hba
      rw [hd] at hb
      have hdb := Option.some.inj hb
      subst hdb
      exact ⟨_, hnew, rfl, rfl, rfl⟩
    · refine ⟨db, ?_, rfl, rfl, rfl⟩
      rw [hheap, Function.update_noteq hba]
      exact hb
  have old : ∀ b db1, s1.heap b = some db1 → ∃ db, s.heap b = some db ∧
      db1.level = db.level ∧ db1.parent = db.parent ∧
      db1.previous_thread_local = db.previous_thread_local := by
    intro b db1 hb
    by_cases hba : b = a
    · subst hba
      rw [hnew] at hb
      have hdb := Option.some.inj hb
      subst hdb
      exact ⟨d, hd, rfl, rfl, rfl⟩
    · refine ⟨db1, ?_, rfl, rfl, rfl⟩
      rw [hheap, Function.update_noteq hba] at hb
      exact hb
  refine ⟨?_, ?_, ?_, ?_, ?_, ?_⟩
  · intro n hn
    have hne : Addr.obj n ≠ a := by
      intro hc
      rw [← hc, hi.fresh n (hnext ▸ hn)] at hd
      exact Option.noConfusion hd
    rw [hheap, Function.update_noteq hne]
    exact hi.fresh n (hnext ▸ hn)
  · intro t
    have hne : Addr.tl t ≠ a := by
      rw [hna]
      exact Addr.noConfusion
    rw [hheap, Function.update_noteq hne]
    exact hi.gen t
  · intro h1 hh1
    rw [hlive] at hh1
    obtain ⟨hmem, hne⟩ := List.mem_filter.mp hh1
    have hne1 : h1 ≠ a := by simpa using hne
    obtain ⟨n, d1, hn, hd1, he⟩ := hi.live_ok h1 hmem
    refine ⟨n, d1, hn, ?_, he⟩
    rw [hheap, Function.update_noteq hne1]
    exact hd1
  · intro b db1 hb q hq
    obtain ⟨db, hdb, hl, hp, -⟩ := old b db1 hb
    obtain ⟨pd, hpd, hlv1⟩ := hi.parent_ok b db hdb q (hp ▸ hq)
    obtain ⟨pd1, hpd1, hl1, -, -⟩ := keep q pd hpd
    exact ⟨pd1, hpd1, by rw [hl, hlv1, hl1]⟩
  · intro t
    by_cases ht : t = tid
    · subst ht
      rw [hcur, Function.update_same]
      obtain ⟨c, dc, hc, hdc⟩ := hi.prev_ok na d (hna ▸ hd)
      obtain ⟨dc1, hdc1, -⟩ := keep c dc hdc
      exact ⟨c, dc1, hc, hdc1⟩
    · rw [hcur, Function.update_noteq ht]
      obtain ⟨c, dc, hc, hdc⟩ := hi.cur_ok t
      obtain ⟨dc1, hdc1, -⟩ := keep c dc hdc
      exact ⟨c, dc1, hc, hdc1⟩
  · intro n d1 hd1
    obtain ⟨db, hdb, -, -, hpv⟩ := old _ d1 hd1
    obtain ⟨c, dc, hc, hdc⟩ := hi.prev_ok n db hdb
    obtain ⟨dc1, hdc1, -⟩ := keep c dc hdc
    exact ⟨c, dc1, hpv ▸ hc, hdc1⟩

theorem new_eq_scope {s : State} {tid : Nat} {c : Ctor} {now : Int} {r : State × Addr}
    (h : new s tid c now = some r) :
    ∃ p l, Scope.new s tid p l now = some r ∧
      (c = .default → p = s.current_thread_local tid ∧ l = "noname1") ∧
      (∀ l1, c = .label l1 → p = s.current_thread_local tid ∧ l = l1) ∧
      (∀ q, c = .copy q → q ∈ s.live ∧ p = some q ∧ l = "") ∧
      (∀ q l1, c = .copyLabel q l1 → q ∈ s.live ∧ p = some q ∧ l = l1) := by
  cases c with
  | default => exact ⟨_, _, h, by simp⟩
  | label l1 => exact ⟨_, _, h, by simp⟩
  | copy q =>
    by_cases hq : q ∈ s.live
    · simp only [new, hq, if_true] at h
      exact ⟨_, _, h, by simp [hq]⟩
    · simp [new, hq] at h
  | copyLabel q l1 =>
    by_cases hq : q ∈ s.live
    · simp only [new, hq, if_true] at h
      exact ⟨_, _, h, by simp [hq]⟩
    · simp [new, hq] at h

theorem Inv.of_new {s s1 : State} {tid : Nat} {c : Ctor} {now : Int} {a : Addr}
    (hi : Inv s) (h : new s tid c now = some (s1, a)) : Inv s1 := by
  obtain ⟨p, l, hs, -⟩ := new_eq_scope h
  exact hi.of_scope_new hs

theorem delete_eq_scope {s : State} {tid : Nat} {a : Addr} {now : Int} {r : State × Int}
    (h : delete s tid a now = some r) :
    a ∈ s.live ∧ Scope.delete s tid a now = some r := by
  by_cases ha : a ∈ s.live
  · simp only [delete, ha, if_true] at h
    exact ⟨ha, h⟩
  · simp [delete, ha] at h

theorem Inv.of_delete {s s1 : State} {tid : Nat} {a : Addr} {now k : Int}
    (hi : Inv s) (h : delete s tid a now = some (s1, k)) : Inv s1 := by
  obtain ⟨ha, hs⟩ := delete_eq_scope h
  exact hi.of_scope_delete ha hs

theorem step_construct {s s1 : State} {tid : Nat} {c : Ctor} {now : Int}
    (h : step s (.construct tid c now) = some s1) :
    ∃ a, new s tid c now = some (s1, a) := by
  simp only [step, Option.map_eq_some', Prod.exists, exists_and_right, exists_eq_right] at h
  exact h

theorem step_destroy {s s1 : State} {tid : Nat} {a : Addr} {now : Int}
    (h : step s (.destroy tid a now) = some s1) :
    ∃ k, delete s tid a now = some (s1, k) := by
  simp only [step, Option.map_eq_some', Prod.exists, exists_and_right, exists_eq_right] at h
  exact h

theorem Inv.of_step {s s1 : State} {e : Event} (hi : Inv s) (h : step s e = some s1) :
    Inv s1 := by
  cases e with
  | construct tid c now =>
    obtain ⟨a, ha⟩ := step_construct h
    exact hi.of_new ha
  | destroy tid a now =>
    obtain ⟨k, hk⟩ := step_destroy h
    exact hi.of_delete hk

theorem run_cons {s s2 : State} {e : Event} {es : List Event}
    (h : run s (e :: es) = some s2) : ∃ s1, step s e = some s1 ∧ run s1 es = some s2 := by
  unfold run at h
  cases hs : step s e with
  | none => simp [hs] at h
  | some s1 =>
    simp only [hs] at h
    exact ⟨s1, rfl, h⟩

theorem run_append {s s2 : State} {es fs : List Event}
    (h : run s (es ++ fs) = some s2) : ∃ s1, run s es = some s1 ∧ run s1 fs = some s2 := by
  induction es generalizing s with
  | nil => exact ⟨s, rfl, h⟩
  | cons e es ih =>
    obtain ⟨s1, h1, h2⟩ := run_cons h
    obtain ⟨s3, h3, h4⟩ := ih h2
    refine ⟨s3, ?_, h4⟩
    simp only [run, h1]
    exact h3

theorem Inv.of_run {s s1 : State} {es : List Event} (hi : Inv s) (h : run s es = some s1) :
    Inv s1 := by
  induction es generalizing s with
  | nil =>
    simp only [TraceContext.run, Option.some.injEq] at h
    exact h ▸ hi
  | cons e es ih =>
    obtain ⟨s2, h1, h2⟩ := run_cons h
    exact ih (hi.of_step h1) h2

/-- Every constructor call whose `parent` argument, if any, is alive returns. -/
theorem Inv.ctor_returns {s : State} (hi : Inv s) (tid : Nat) (c : Ctor) (now : Int)
    (hc : ∀ q, (c = .copy q ∨ ∃ l, c = .copyLabel q l) → q ∈ s.live) :
    ∃ s1 a, TraceContext.new s tid c now = some (s1, a) := by
  have key : ∀ (p : Option Addr) (l : String), (∀ q, p = some q → ∃ pd, s.heap q = some pd) →
      ∃ s1 a, Scope.new s tid p l now = some (s1, a) := by
    intro p l hp
    obtain ⟨d0, hd0⟩ := data_new_isSome s.heap p l tid hp
    exact ⟨_, _, by simp only [Scope.new, hd0]; rfl⟩
  have hcur : ∀ q, s.current_thread_local tid = some q → ∃ pd, s.heap q = some pd := by
    intro q hq
    obtain ⟨c1, dc, hc1, hdc⟩ := hi.cur_ok tid
    rw [hq] at hc1
    exact ⟨dc, (Option.some.inj hc1) ▸ hdc⟩
  have hlv : ∀ q, q ∈ s.live → ∀ q1, some q = some q1 → ∃ pd, s.heap q1 = some pd := by
    intro q hq q1 h1
    obtain ⟨n, d, -, hd, -⟩ := hi.live_ok q hq
    exact ⟨d, (Option.some.inj h1) ▸ hd⟩
  cases c with
  | default => exact key _ _ hcur
  | label l => exact key _ _ hcur
  | copy q =>
    have hq := hc q (Or.inl rfl)
    simp only [TraceContext.new, hq, if_true]
    exact key _ _ (hlv q hq)
  | copyLabel q l =>
    have hq := hc q (Or.inr ⟨l, rfl⟩)
    simp only [TraceContext.new, hq, if_true]
    exact key _ _ (hlv q hq)

/-- Every destructor call on an object that is alive returns. -/
theorem Inv.dtor_returns {s : State} (hi : Inv s) (tid : Nat) {a : Addr} (now : Int)
    (ha : a ∈ s.live) : ∃ s1 k, TraceContext.delete s tid a now = some (s1, k) := by
  obtain ⟨n, d, -, hd, -⟩ := hi.live_ok a ha
  simp only [TraceContext.delete, ha, if_true, Scope.delete, hd]
  have : ∃ k, parentActive (Function.update s.heap a (some { d with endTime := now }))
      { d with endTime := now } = some k := by
    unfold parentActive
    cases hp : d.parent with
    | none => exact ⟨_, rfl⟩
    | some p =>
      obtain ⟨pd, hpd, -⟩ := hi.parent_ok a d hd p hp
      by_cases hpa : p = a
      · subst hpa
        simp
      · simp [Function.update_noteq hpa, hpd]
  obtain ⟨k, hk⟩ := this
  rw [hk]
  exact ⟨_, k, rfl⟩

/-! ## Frame lemmas -/

/-- A call other than the destruction of the object holding `a` leaves the
record at `a` as it is. -/
theorem step_heap_other {s s1 : State} {e : Event} {a : Addr} {d : Data} (hi : Inv s)
    (h : step s e = some s1) (ha : s.heap a = some d)
    (hne : ∀ tid now, e ≠ .destroy tid a now) : s1.heap a = some d := by
  cases e with
  | construct tid c now =>
    obtain ⟨b, hb⟩ := step_construct h
    obtain ⟨p, l, hs, -⟩ := new_eq_scope hb
    obtain ⟨d0, -, hb1, hheap, -⟩ := scope_new_spec hs
    have hab : a ≠ b := hb1 ▸ hi.ne_next ha
    rw [hheap, Function.update_noteq hab]
    exact ha
  | destroy tid b now =>
    obtain ⟨k, hk⟩ := step_destroy h
    obtain ⟨-, hs⟩ := delete_eq_scope hk
    obtain ⟨d0, -, hheap, -⟩ := scope_delete_spec hs
    have hab : a ≠ b := by
      intro hc
      exact hne tid now (hc ▸ rfl)
    rw [hheap, Function.update_noteq hab]
    exact ha

/-- The destruction of the object holding `a` writes `endTime` of the record at
`a` and nothing else of it, sets the cursor of the destroying thread to the
record's `previous_thread_local`, and ends the object's life. -/
theorem step_heap_destroy {s s1 : State} {tid : Nat} {a : Addr} {now : Int}
    (h : step s (.destroy tid a now) = some s1) :
    ∃ d, s.heap a = some d ∧ s1.heap a = some { d with endTime := now } ∧
      a ∈ s.live ∧ a ∉ s1.live ∧
      s1.current_thread_local tid = d.previous_thread_local := by
  obtain ⟨k, hk⟩ := step_destroy h
  obtain ⟨hlv, hs⟩ := delete_eq_scope hk
  obtain ⟨d, hd, hheap, -, hcur, hlive, -⟩ := scope_delete_spec hs
  refine ⟨d, hd, ?_, hlv, ?_, ?_⟩
  · rw [hheap, Function.update_same]
  · rw [hlive]
    simp
  · rw [hcur, Function.update_same]

/-- No call changes a field of an existing record other than `endTime`. -/
theorem step_heap_frame {s s1 : State} {e : Event} {a : Addr} {d : Data} (hi : Inv s)
    (h : step s e = some s1) (ha : s.heap a = some d) :
    ∃ d1, s1.heap a = some d1 ∧ d1 = { d with endTime := d1.endTime } := by
  by_cases hne : ∀ tid now, e ≠ .destroy tid a now
  · exact ⟨d, step_heap_other hi h ha hne, rfl⟩
  · push_neg at hne
    obtain ⟨tid, now, he⟩ := hne
    subst he
    obtain ⟨d0, hd0, hd1, -⟩ := step_heap_destroy h
    rw [ha] at hd0
    have hd := Option.some.inj hd0
    subst hd
    exact ⟨_, hd1, rfl⟩

theorem run_heap_frame {s s1 : State} {es : List Event} {a : Addr} {d : Data}
    (hi : Inv s) (h : run s es = some s1) (ha : s.heap a = some d) :
    ∃ d1, s1.heap a = some d1 ∧ d1 = { d with endTime := d1.endTime } := by
  induction es generalizing s d with
  | nil =>
    simp only [run, Option.some.injEq] at h
    subst h
    exact ⟨d, ha, rfl⟩
  | cons e es ih =>
    obtain ⟨s2, h1, h2⟩ := run_cons h
    obtain ⟨d2, hd2, he2⟩ := step_heap_frame hi h1 ha
    obtain ⟨d1, hd1, he1⟩ := ih (hi.of_step h1) h2 hd2
    refine ⟨d1, hd1, ?_⟩
    rw [he1, he2]

/-- A call leaves alone the objects that are not alive, and the object it
creates holds a record that did not exist before. -/
theorem step_dead {s s1 : State} {e : Event} {a : Addr} {d : Data} (hi : Inv s)
    (h : step s e = some s1) (ha : s.heap a = some d) (hdead : a ∉ s.live) :
    s1.heap a = some d ∧ a ∉ s1.live := by
  refine ⟨step_heap_other hi h ha ?_, ?_⟩
  · intro tid now he
    subst he
    obtain ⟨-, -, -, hlv, -⟩ := step_heap_destroy h
    exact hdead hlv
  · cases e with
    | construct tid c now =>
      obtain ⟨b, hb⟩ := step_construct h
      obtain ⟨p, l, hs, -⟩ := new_eq_scope hb
      obtain ⟨d0, -, hb1, -, -, -, hlive⟩ := scope_new_spec hs
      have hab : a ≠ b := hb1 ▸ hi.ne_next ha
      rw [hlive]
      simp [hab, hdead]
    | destroy tid b now =>
      obtain ⟨k, hk⟩ := step_destroy h
      obtain ⟨-, hs⟩ := delete_eq_scope hk
      obtain ⟨d0, -, -, -, -, hlive, -⟩ := scope_delete_spec hs
      rw [hlive]
      simp [hdead]

theorem run_dead {s s1 : State} {es : List Event} {a : Addr} {d : Data} (hi : Inv s)
    (h : run s es = some s1) (ha : s.heap a = some d) (hdead : a ∉ s.live) :
    s1.heap a = some d ∧ a ∉ s1.live := by
  induction es generalizing s with
  | nil =>
    simp only [run, Option.some.injEq] at h
    subst h
    exact ⟨ha, hdead⟩
  | cons e es ih =>
    obtain ⟨s2, h1, h2⟩ := run_cons h
    obtain ⟨ha2, hdead2⟩ := step_dead hi h1 ha hdead
    exact ih (hi.of_step h1) h2 ha2 hdead2

/-- A call run on one thread leaves the cursor of every other thread alone. -/
theorem step_cursor_other {s s1 : State} {e : Event} {t : Nat}
    (h : step s e = some s1) (ht : e.tid ≠ t) :
    s1.current_thread_local t = s.current_thread_local t := by
  have ht1 : t ≠ e.tid := fun hc => ht hc.symm
  cases e with
  | construct tid c now =>
    obtain ⟨b, hb⟩ := step_construct h
    obtain ⟨p, l, hs, -⟩ := new_eq_scope hb
    obtain ⟨d0, -, -, -, -, hcur, -⟩ := scope_new_spec hs
    have ht2 : t ≠ tid := ht1
    rw [hcur, Function.update_noteq ht2]
  | destroy tid b now =>
    obtain ⟨k, hk⟩ := step_destroy h
    obtain ⟨-, hs⟩ := delete_eq_scope hk
    obtain ⟨d0, -, -, -, hcur, -⟩ := scope_delete_spec hs
    have ht2 : t ≠ tid := ht1
    rw [hcur, Function.update_noteq ht2]

theorem run_cursor_other {s s1 : State} {es : List Event} {t : Nat}
    (h : run s es = some s1) (ht : ∀ e ∈ es, e.tid ≠ t) :
    s1.current_thread_local t = s.current_thread_local t := by
  induction es generalizing s with
  | nil =>
    simp only [run, Option.some.injEq] at h
    subst h
    rfl
  | cons e es ih =>
    obtain ⟨s2, h1, h2⟩ := run_cons h
    rw [ih h2 (fun e1 he1 => ht e1 (List.mem_cons_of_mem _ he1)),
      step_cursor_other h1 (ht e (List.mem_cons_self _ _))]

/-- What a constructor call leaves behind: the new record, and the cursor of
the constructing thread pointing to it. -/
theorem new_record {s s1 : State} {tid : Nat} {c : Ctor} {now : Int} {a : Addr}
    (hi : Inv s) (h : new s tid c now = some (s1, a)) :
    ∃ d, s.heap a = none ∧ s1.heap a = some d ∧ a ∈ s1.live ∧
      s1.current_thread_local tid = some a ∧
      d.previous_thread_local = s.current_thread_local tid ∧
      d.threadID = tid ∧ d.startTime = now ∧ d.endTime = 0 ∧
      (∀ q, d.parent = some q → ∃ dq, s.heap q = some dq ∧ s1.heap q = some dq ∧
        d.level = dq.level + 1) ∧
      (c = .default → d.parent = s.current_thread_local tid ∧ d.label = "noname1") ∧
      (∀ l, c = .label l → d.parent = s.current_thread_local tid ∧ d.label = l) ∧
      (∀ q, c = .copy q → d.parent = some q ∧ d.label = "") ∧
      (∀ q l, c = .copyLabel q l → d.parent = some q ∧ d.label = l) := by
  obtain ⟨p, l, hs, h1, h2, h3, h4⟩ := new_eq_scope h
  obtain ⟨d0, hd0, ha, hheap, -, hcur, hlive⟩ := scope_new_spec hs
  obtain ⟨hpar, -, hlab, htid, -, hend, -, hlev⟩ := data_new_spec hd0
  have hnew := congrFun hheap a
  rw [Function.update_same] at hnew
  refine ⟨_, ?_, hnew, ?_, ?_, rfl, htid, rfl, hend, ?_, ?_, ?_, ?_, ?_⟩
  · rw [ha]
    exact hi.fresh _ le_rfl
  · rw [hlive]
    exact List.mem_cons_self _ _
  · rw [hcur, Function.update_same]
  · intro q hq
    simp only at hq
    rw [hpar] at hq
    obtain ⟨pd, hpd, hl⟩ := hlev q hq
    refine ⟨pd, hpd, ?_, hl⟩
    have hqa : q ≠ a := ha ▸ hi.ne_next hpd
    rw [hheap, Function.update_noteq hqa]
    exact hpd
  · intro hc
    obtain ⟨e1, e2⟩ := h1 hc
    exact ⟨hpar.trans e1, hlab.trans e2⟩
  · intro l1 hc
    obtain ⟨e1, e2⟩ := h2 l1 hc
    exact ⟨hpar.trans e1, hlab.trans e2⟩
  · intro q hc
    obtain ⟨-, e1, e2⟩ := h3 q hc
    exact ⟨hpar.trans e1, hlab.trans e2⟩
  · intro q l1 hc
    obtain ⟨-, e1, e2⟩ := h4 q l1 hc
    exact ⟨hpar.trans e1, hlab.trans e2⟩

theorem step_of_new {s s1 : State} {tid : Nat} {c : Ctor} {now : Int} {a : Addr}
    (h : new s tid c now = some (s1, a)) : step s (.construct tid c now) = some s1 := by
  simp [step, h]

theorem step_of_delete {s s1 : State} {tid : Nat} {a : Addr} {now k : Int}
    (h : delete s tid a now = some (s1, k)) : step s (.destroy tid a now) = some s1 := by
  simp [step, h]

/-- C1: `Data(parent_, label_)`, with `parent_` null or pointing to a record
whose level is below `INT_MAX` (so that `parent_->level + 1` does not overflow
the `int`), returns a record whose level is the level of the parent plus one,
itself an `int`, when there is a parent, and `-1` when `parent_` is null, for
every label and every thread. -/
theorem data_level (mem : Heap) (parent_ : Option Addr) (label_ : String) (tid : Nat)
    (hp : ∀ p, parent_ = some p → ∃ pd, mem p = some pd)
    (hb : ∀ p pd, parent_ = some p → mem p = some pd → pd.level < 2147483647) :
    ∃ d, Data.new mem parent_ label_ tid = some d ∧
      (∀ p pd, parent_ = some p → mem p = some pd →
        d.level = pd.level + 1 ∧ d.level ≤ 2147483647) ∧
      (parent_ = none → d.level = -1) := by
  obtain ⟨d, hd⟩ := data_new_isSome mem parent_ label_ tid hp
  obtain ⟨-, -, -, -, -, -, hnone, hsome⟩ := data_new_spec hd
  refine ⟨d, hd, ?_, hnone⟩
  intro p pd h1 h2
  obtain ⟨pd1, h3, h4⟩ := hsome p h1
  rw [h2] at h3
  have hpd := Option.some.inj h3
  subst hpd
  have := hb p pd h1 h2
  exact ⟨h4, by omega⟩

theorem data_level_witness :
    (∀ p, some (Addr.tl 7) = some p → ∃ pd, State.init.heap p = some pd) ∧
    (∀ p pd, some (Addr.tl 7) = some p → State.init.heap p = some pd →
      pd.level < 2147483647) ∧
    ∃ d, Data.new State.init.heap (some (.tl 7)) "child" 3 = some d ∧
      (∀ p pd, some (Addr.tl 7) = some p → State.init.heap p = some pd →
        d.level = pd.level + 1 ∧ d.level ≤ 2147483647) ∧
      ((some (Addr.tl 7) : Option Addr) = none → d.level = -1) :=
  ⟨fun _ hp => ⟨genesis 7, (Option.some.inj hp) ▸ rfl⟩,
    fun p pd hp hpd => by
      have h1 : p = Addr.tl 7 := (Option.some.inj hp).symm
      subst h1
      have h2 : State.init.heap (.tl 7) = some (genesis 7) := rfl
      rw [h2] at hpd
      rw [← Option.some.inj hpd]
      decide,
    data_level State.init.heap (some (.tl 7)) "child" 3
      (fun _ hp => ⟨genesis 7, (Option.some.inj hp) ▸ rfl⟩)
      (fun p pd hp hpd => by
        have h1 : p = Addr.tl 7 := (Option.some.inj hp).symm
        subst h1
        have h2 : State.init.heap (.tl 7) = some (genesis 7) := rfl
        rw [h2] at hpd
        rw [← Option.some.inj hpd]
        decide)⟩

/-- The constructor `TraceContext(label)` on a thread whose cursor points to a
record: the new record has that record as parent, the given label and a level
one higher, the cursor moves to it, and the records that existed stay as they
were. -/
theorem new_label_level {s : State} (hi : Inv s) (t : Nat) (l : String) (now : Int)
    {p : Addr} {pd : Data} (hc : s.current_thread_local t = some p)
    (hp : s.heap p = some pd) :
    ∃ s1 a d, new s t (.label l) now = some (s1, a) ∧ Inv s1 ∧ s1.heap a = some d ∧
      d.level = pd.level + 1 ∧ s1.current_thread_local t = some a ∧
      (∀ b db, s.heap b = some db → s1.heap b = some db) ∧
      d.parent = some p ∧ d.label = l := by
  obtain ⟨s1, a, h⟩ := hi.ctor_returns t (.label l) now (by simp)
  obtain ⟨d, -, hd, -, hcur, -, -, -, -, hpar, -, hl, -⟩ := new_record hi h
  obtain ⟨hdp, hdl⟩ := hl l rfl
  obtain ⟨dq, hdq, -, hlev⟩ := hpar p (hdp.trans hc)
  rw [hp] at hdq
  have := Option.some.inj hdq
  subst this
  refine ⟨s1, a, d, h, hi.of_new h, hd, hlev, hcur, ?_, hdp.trans hc, hdl⟩
  intro b db hb
  exact step_heap_other hi (step_of_new h) hb (fun _ _ he => Event.noConfusion he)

/-- C3, as the code has it: on a thread whose current span is still the record
of its `current_thread_local` initialiser, "A" created with
`TraceContext(label)`, then "B", then "C" all return; the parent of "A" is the
thread's own record, whose level is -1, and the level of "A" is 0; the parent of
"B" is the record of "A" and its level is 1; the parent of "C" is the record of
"B" and its level is 2. -/
theorem levels_nested_ABC (pre : List Event) (s : State) (t : Nat) (n1 n2 n3 : Int)
    (hpre : run State.init pre = some s)
    (hcur : s.current_thread_local t = some (.tl t)) :
    levelsABC s t n1 n2 n3 = some (some 0, some 1, some 2) ∧
    ∃ s3 a b c g da db dc, nestedABC s t n1 n2 n3 = some (s3, a, b, c) ∧
      s3.heap (.tl t) = some g ∧ g.parent = none ∧ g.level = -1 ∧
      g.label = "ThreadLocal" ∧
      s3.heap a = some da ∧ da.parent = some (.tl t) ∧ da.label = "A" ∧ da.level = 0 ∧
      s3.heap b = some db ∧ db.parent = some a ∧ db.label = "B" ∧ db.level = 1 ∧
      s3.heap c = some dc ∧ dc.parent = some b ∧ dc.label = "C" ∧ dc.level = 2 := by
  have hi : Inv s := Inv.of_init.of_run hpre
  obtain ⟨s1, a, da, h1, hi1, hda, hla, hc1, k1, hpa, hna⟩ :=
    new_label_level hi t "A" n1 hcur (hi.gen t)
  obtain ⟨s2, b, db, h2, hi2, hdb, hlb, hc2, k2, hpb, hnb⟩ :=
    new_label_level hi1 t "B" n2 hc1 hda
  obtain ⟨s3, c, dc, h3, hi3, hdc, hlc, hc3, k3, hpc, hnc⟩ :=
    new_label_level hi2 t "C" n3 hc2 hdb
  have ha3 : s3.heap a = some da := k3 _ _ (k2 _ _ hda)
  have hb3 : s3.heap b = some db := k3 _ _ hdb
  have hla0 : da.level = 0 := by
    rw [hla]
    rfl
  have hlb1 : db.level = 1 := by
    rw [hlb, hla0]
    rfl
  have hlc2 : dc.level = 2 := by
    rw [hlc, hlb1]
    rfl
  refine ⟨?_, s3, a, b, c, genesis t, da, db, dc, ?_, hi3.gen t, rfl, rfl, rfl,
    ha3, hpa, hna, hla0, hb3, hpb, hnb, hlb1, hdc, hpc, hnc, hlc2⟩
  · simp only [levelsABC, nestedABC, h1, h2, h3, levelAt, ha3, hb3, hdc, Option.map_some',
      hla0, hlb1, hlc2]
  · simp only [nestedABC, h1, h2, h3]

theorem levels_nested_ABC_witness :
    ∃ s, run State.init [.construct 1 (.label "other") 4, .construct 0 (.label "X") 5,
        .destroy 0 (.obj 1) 6] = some s ∧
      s.current_thread_local 0 = some (.tl 0) ∧
      levelsABC s 0 7 8 9 = some (some 0, some 1, some 2) ∧
      ∃ s3 a b c g da db dc, nestedABC s 0 7 8 9 = some (s3, a, b, c) ∧
        s3.heap (.tl 0) = some g ∧ g.parent = none ∧ g.level = -1 ∧
        g.label = "ThreadLocal" ∧
        s3.heap a = some da ∧ da.parent = some (.tl 0) ∧ da.label = "A" ∧ da.level = 0 ∧
        s3.heap b = some db ∧ db.parent = some a ∧ db.label = "B" ∧ db.level = 1 ∧
        s3.heap c = some dc ∧ dc.parent = some b ∧ dc.label = "C" ∧ dc.level = 2 :=
  ⟨_, rfl, rfl,
    levels_nested_ABC [.construct 1 (.label "other") 4, .construct 0 (.label "X") 5,
      .destroy 0 (.obj 1) 6] _ 0 7 8 9 rfl rfl⟩

/-- C3, as the claim states it, fails: on a fresh thread the records of "A",
"B" and "C" have the levels 0, 1, 2, not -1, 0, 1.  And "no scope yet open" is
not enough for 0, 1, 2 either: after thread 1 has opened "P" and "R" and "R" has
been destroyed on thread 2, thread 2 has never opened a scope, its current span
is the record of "P", and the levels there are 1, 2, 3. -/
theorem levels_nested_ABC_counterexample :
    (levelsABC State.init 0 1 2 3 = some (some 0, some 1, some 2) ∧
      levelsABC State.init 0 1 2 3 ≠ some (some (-1), some 0, some 1)) ∧
    ∃ s, run State.init [.construct 1 (.label "P") 1, .construct 1 (.label "R") 2,
        .destroy 2 (.obj 1) 3] = some s ∧
      s.current_thread_local 2 = some (.obj 0) ∧
      levelsABC s 2 4 5 6 = some (some 1, some 2, some 3) ∧
      levelsABC s 2 4 5 6 ≠ some (some (-1), some 0, some 1) :=
  ⟨by decide, _, rfl, rfl, by decide, by decide⟩

/-- C4: a handle `h` is constructed on thread `A`; later, while it is alive,
`TraceContext(h, label)` on thread `B` returns, and its record has
`threadID = B`, its parent is the record of `h`, whose `threadID` is `A`, and its
level is the level of `h` plus one. -/
theorem cross_thread_parenting (pre mid : List Event) (s0 s1 s : State) (A B : Nat)
    (c : Ctor) (nowA now : Int) (h : Addr) (label_ : String)
    (h0 : run State.init pre = some s0) (hA : new s0 A c nowA = some (s1, h))
    (hmid : run s1 mid = some s) (hlive : h ∈ s.live) :
    ∃ s2 q dq dh, new s B (.copyLabel h label_) now = some (s2, q) ∧
      s2.heap q = some dq ∧ s2.heap h = some dh ∧ dq.threadID = B ∧
      dq.parent = some h ∧ dh.threadID = A ∧ dq.level = dh.level + 1 ∧
      dq.label = label_ := by
  have hi0 : Inv s0 := Inv.of_init.of_run h0
  have hi1 : Inv s1 := hi0.of_new hA
  have hi : Inv s := hi1.of_run hmid
  obtain ⟨d1, -, hd1, -, -, -, htid1, -⟩ := new_record hi0 hA
  obtain ⟨dh, hdh, hfr⟩ := run_heap_frame hi1 hmid hd1
  obtain ⟨s2, q, hq⟩ := hi.ctor_returns B (.copyLabel h label_) now (by
    intro q1 hq1
    rcases hq1 with hq1 | ⟨l, hq1⟩
    · exact Ctor.noConfusion hq1
    · injection hq1 with e1 e2
      exact e1 ▸ hlive)
  obtain ⟨dq, -, hdq, -, -, -, htid, -, -, hpar, -, -, -, hcl⟩ := new_record hi hq
  obtain ⟨hp, hl⟩ := hcl h label_ rfl
  obtain ⟨dh2, hdh2, hdh3, hlev⟩ := hpar h hp
  rw [hdh] at hdh2
  have := Option.some.inj hdh2
  subst this
  refine ⟨s2, q, dq, dh, hq, hdq, hdh3, htid, hp, ?_, hlev, hl⟩
  rw [hfr]
  exact htid1

theorem cross_thread_parenting_witness :
    ∃ s1, new State.init 1 (.label "parentContext") 10 = some (s1, .obj 0) ∧
      Addr.obj 0 ∈ s1.live ∧
      ∃ s2 q dq dh, new s1 2 (.copyLabel (.obj 0) "childContext") 20 = some (s2, q) ∧
        s2.heap q = some dq ∧ s2.heap (.obj 0) = some dh ∧ dq.threadID = 2 ∧
        dq.parent = some (.obj 0) ∧ dh.threadID = 1 ∧ dq.level = dh.level + 1 ∧
        dq.label = "childContext" :=
  ⟨_, rfl, by decide,
    cross_thread_parenting [] [] State.init _ _ 1 2 (.label "parentContext") 10 20 (.obj 0)
      "childContext" rfl rfl rfl (by decide)⟩

/-! ### Time stamps -/

/-- Where the objects alive after a call come from. -/
theorem step_live {s s1 : State} {e : Event} {a : Addr} (h : step s e = some s1)
    (ha : a ∈ s1.live) :
    (a ∈ s.live ∧ ∀ tid now, e ≠ .destroy tid a now) ∨
      ∃ tid c now, e = .construct tid c now ∧ new s tid c now = some (s1, a) := by
  cases e with
  | construct tid c now =>
    obtain ⟨b, hb⟩ := step_construct h
    obtain ⟨p, l, hs, -⟩ := new_eq_scope hb
    obtain ⟨d0, -, -, -, -, -, hlive⟩ := scope_new_spec hs
    rw [hlive] at ha
    rcases List.mem_cons.mp ha with rfl | hmem
    · exact Or.inr ⟨tid, c, now, rfl, hb⟩
    · exact Or.inl ⟨hmem, fun _ _ he => Event.noConfusion he⟩
  | destroy tid b now =>
    obtain ⟨k, hk⟩ := step_destroy h
    obtain ⟨-, hs⟩ := delete_eq_scope hk
    obtain ⟨d0, -, -, -, -, hlive, -⟩ := scope_delete_spec hs
    rw [hlive] at ha
    obtain ⟨hmem, hne⟩ := List.mem_filter.mp ha
    have hne1 : a ≠ b := by simpa using hne
    refine Or.inl ⟨hmem, ?_⟩
    intro tid1 now1 he
    injection he with _ e2 _
    exact hne1 e2.symm

/-- An object stays alive as long as it is not destroyed. -/
theorem run_live_keep {s s1 : State} {es : List Event} {a : Addr}
    (h : run s es = some s1) (ha : a ∈ s.live)
    (hno : ∀ tid now, Event.destroy tid a now ∉ es) : a ∈ s1.live := by
  induction es generalizing s with
  | nil =>
    simp only [run, Option.some.injEq] at h
    exact h ▸ ha
  | cons e es ih =>
    obtain ⟨s2, h1, h2⟩ := run_cons h
    refine ih h2 ?_ (fun tid now hm => hno tid now (List.mem_cons_of_mem _ hm))
    cases e with
    | construct tid c now =>
      obtain ⟨b, hb⟩ := step_construct h1
      obtain ⟨p, l, hs, -⟩ := new_eq_scope hb
      obtain ⟨d0, -, -, -, -, -, hlive⟩ := scope_new_spec hs
      rw [hlive]
      exact List.mem_cons_of_mem _ ha
    | destroy tid b now =>
      obtain ⟨k, hk⟩ := step_destroy h1
      obtain ⟨-, hs⟩ := delete_eq_scope hk
      obtain ⟨d0, -, -, -, -, hlive, -⟩ := scope_delete_spec hs
      rw [hlive]
      refine List.mem_filter.mpr ⟨ha, ?_⟩
      have hab : a ≠ b := by
        intro hc
        exact hno tid now (hc ▸ List.mem_cons_self _ _)
      simpa using hab

/-- With every clock value read so far at most `T`, every object alive has a
`startTime` of at most `T`. -/
theorem run_start_le {s s1 : State} {es : List Event} {T : Int} (hi : Inv s)
    (h : run s es = some s1)
    (hs : ∀ a ∈ s.live, ∀ d, s.heap a = some d → d.startTime ≤ T)
    (he : ∀ e ∈ es, e.now ≤ T) :
    ∀ a ∈ s1.live, ∀ d, s1.heap a = some d → d.startTime ≤ T := by
  induction es generalizing s with
  | nil =>
    simp only [run, Option.some.injEq] at h
    exact h ▸ hs
  | cons e es ih =>
    obtain ⟨s2, h1, h2⟩ := run_cons h
    refine ih (hi.of_step h1) h2 ?_ (fun e1 he1 => he e1 (List.mem_cons_of_mem _ he1))
    intro a ha d hd
    rcases step_live h1 ha with ⟨hmem, hne⟩ | ⟨tid, c, now, he1, hn⟩
    · obtain ⟨n, d0, -, hd0, -⟩ := hi.live_ok a hmem
      have := step_heap_other hi h1 hd0 hne
      rw [hd] at this
      exact (Option.some.inj this) ▸ hs a hmem d0 hd0
    · obtain ⟨d1, -, hd1, -, -, -, -, hst, -⟩ := new_record hi hn
      rw [hd] at hd1
      rw [Option.some.inj hd1, hst]
      have := he e (List.mem_cons_self _ _)
      rw [he1] at this
      exact this

/-- C5: along a run whose clock values never decrease, (1) the record of an
object constructed during the run keeps `endTime = 0` for as long as the object
is not destroyed, and (2) once the object is destroyed its record holds the clock
value read by the destructor as `endTime`, from then on, and that value is at
least `startTime`. -/
theorem endTime_lifecycle (tr : List Event) (s : State)
    (hrun : run State.init tr = some s)
    (hmono : (tr.map Event.now).Pairwise (fun x y => x ≤ y)) :
    (∀ pre tid c now mid s0 s1 a, tr = pre ++ .construct tid c now :: mid →
      run State.init pre = some s0 → new s0 tid c now = some (s1, a) →
      (∀ tid1 now1, Event.destroy tid1 a now1 ∉ mid) →
      ∃ d, s.heap a = some d ∧ d.startTime = now ∧ d.endTime = 0) ∧
    (∀ pre tid h now post, tr = pre ++ .destroy tid h now :: post →
      ∃ d, s.heap h = some d ∧ d.endTime = now ∧ d.startTime ≤ d.endTime) := by
  refine ⟨?_, ?_⟩
  · intro pre tid c now mid s0 s1 a htr h0 hn hno
    subst htr
    have hi0 : Inv s0 := Inv.of_init.of_run h0
    obtain ⟨s0a, h0a, hrest⟩ := run_append hrun
    rw [h0] at h0a
    have := Option.some.inj h0a
    subst this
    obtain ⟨s1a, h1a, hmid⟩ := run_cons hrest
    rw [step_of_new hn] at h1a
    have := Option.some.inj h1a
    subst this
    obtain ⟨d1, -, hd1, hlv, -, -, -, hst, -⟩ := new_record hi0 hn
    have hlive : a ∈ s.live := run_live_keep hmid hlv hno
    obtain ⟨n, d, -, hd, hend⟩ := (Inv.of_init.of_run hrun).live_ok a hlive
    obtain ⟨d2, hd2, hfr⟩ := run_heap_frame (hi0.of_new hn) hmid hd1
    rw [hd] at hd2
    have := Option.some.inj hd2
    subst this
    refine ⟨d, hd, ?_, hend⟩
    rw [hfr]
    exact hst
  · intro pre tid h now post htr
    subst htr
    obtain ⟨s0, h0, hrest⟩ := run_append hrun
    have hi0 : Inv s0 := Inv.of_init.of_run h0
    obtain ⟨s1, h1, hpost⟩ := run_cons hrest
    obtain ⟨d0, hd0, hd1, hlv, hdead, -⟩ := step_heap_destroy h1
    obtain ⟨hd, -⟩ := run_dead (hi0.of_step h1) hpost hd1 hdead
    refine ⟨_, hd, rfl, ?_⟩
    have hle : ∀ e ∈ pre, e.now ≤ now := by
      intro e he
      rw [List.map_append, List.pairwise_append] at hmono
      obtain ⟨-, -, hx⟩ := hmono
      exact hx e.now (List.mem_map_of_mem _ he) now (by simp [Event.now])
    have := run_start_le (T := now) Inv.of_init h0
      (fun a ha => by simp [State.init] at ha) hle h hlv d0 hd0
    exact this

theorem endTime_lifecycle_witness :
    ∃ s, run State.init [.construct 1 (.label "P") 5, .construct 2 (.copy (.obj 0)) 7,
        .destroy 1 (.obj 0) 9] = some s ∧
      ([(5 : Int), 7, 9]).Pairwise (fun x y => x ≤ y) ∧
      (∃ d, s.heap (.obj 1) = some d ∧ d.startTime = 7 ∧ d.endTime = 0) ∧
      (∃ d, s.heap (.obj 0) = some d ∧ d.endTime = 9 ∧ d.startTime ≤ d.endTime) :=
  ⟨_, rfl, by decide,
    (endTime_lifecycle [.construct 1 (.label "P") 5, .construct 2 (.copy (.obj 0)) 7,
        .destroy 1 (.obj 0) 9] _ rfl (by decide)).1
      [.construct 1 (.label "P") 5] 2 (.copy (.obj 0)) 7 [.destroy 1 (.obj 0) 9] _ _ (.obj 1)
      rfl rfl rfl (by simp),
    (endTime_lifecycle [.construct 1 (.label "P") 5, .construct 2 (.copy (.obj 0)) 7,
        .destroy 1 (.obj 0) 9] _ rfl (by decide)).2
      [.construct 1 (.label "P") 5, .construct 2 (.copy (.obj 0)) 7] 1 (.obj 0) 9 [] rfl⟩

/-- C6: in a state the program can reach, `Scope(parentRecord, label)` on thread
`T`, with `parentRecord` null or pointing to a record, returns; it creates a
record at an address that held none, with `parent = parentRecord`, the given
label, `previous_thread_local` the cursor of `T` just before, `startTime` the
clock value read, `threadID = T` and `endTime` unset; and the cursor of `T`
afterwards is that record. -/
theorem scope_construction (pre : List Event) (s : State) (T : Nat)
    (parentRecord : Option Addr) (label_ : String) (now : Int)
    (hpre : run State.init pre = some s)
    (hp : ∀ p, parentRecord = some p → ∃ pd, s.heap p = some pd) :
    ∃ s1 a d, Scope.new s T parentRecord label_ now = some (s1, a) ∧
      s.heap a = none ∧ s1.heap a = some d ∧ d.parent = parentRecord ∧
      d.label = label_ ∧ d.previous_thread_local = s.current_thread_local T ∧
      d.startTime = now ∧ d.threadID = T ∧ d.endTime = 0 ∧
      s1.current_thread_local T = some a := by
  have hi : Inv s := Inv.of_init.of_run hpre
  obtain ⟨d0, hd0⟩ := data_new_isSome s.heap parentRecord label_ T hp
  have h : ∃ s1 a, Scope.new s T parentRecord label_ now = some (s1, a) :=
    ⟨_, _, by simp only [Scope.new, hd0]; rfl⟩
  obtain ⟨s1, a, h⟩ := h
  obtain ⟨d1, hd1, ha, hheap, -, hcur, -⟩ := scope_new_spec h
  rw [hd0] at hd1
  have := Option.some.inj hd1
  subst this
  obtain ⟨hpar, -, hlab, htid, -, hend, -⟩ := data_new_spec hd0
  have hnew := congrFun hheap a
  rw [Function.update_same] at hnew
  refine ⟨s1, a, _, h, ?_, hnew, hpar, hlab, rfl, rfl, htid, hend, ?_⟩
  · rw [ha]
    exact hi.fresh _ le_rfl
  · rw [hcur, Function.update_same]

theorem scope_construction_witness :
    ∃ s, run State.init [.construct 3 (.label "x") 1] = some s ∧
      (∀ p, some (Addr.tl 5) = some p → ∃ pd, s.heap p = some pd) ∧
      ∃ s1 a d, Scope.new s 3 (some (.tl 5)) "y" 2 = some (s1, a) ∧
        s.heap a = none ∧ s1.heap a = some d ∧ d.parent = some (.tl 5) ∧
        d.label = "y" ∧ d.previous_thread_local = s.current_thread_local 3 ∧
        d.startTime = 2 ∧ d.threadID = 3 ∧ d.endTime = 0 ∧
        s1.current_thread_local 3 = some a :=
  ⟨_, rfl, fun _ hp => ⟨genesis 5, (Option.some.inj hp) ▸ rfl⟩,
    scope_construction [.construct 3 (.label "x") 1] _ 3 (some (.tl 5)) "y" 2 rfl
      (fun _ hp => ⟨genesis 5, (Option.some.inj hp) ▸ rfl⟩)⟩

/-- C7: `P` is constructed on thread `t1`; later `Q` is constructed on thread
`t2` from the handle of `P`; later `P` is destroyed on `t1`, the clock reading
`n3`, not zero.  From then on the parent of `Q` is still the record of `P`, whose
label, level and `threadID` are those it was created with, and whose `endTime` is
`n3`, which is not the unset value. -/
theorem detached_lifetime (pre mid1 mid2 post : List Event)
    (s0 s1 s2 s3 s4 s5 s6 : State) (t1 t2 : Nat) (cp cq : Ctor) (lq : String)
    (n1 n2 n3 k : Int) (P Q : Addr) (dP : Data)
    (h0 : run State.init pre = some s0) (hP : new s0 t1 cp n1 = some (s1, P))
    (hdP : s1.heap P = some dP) (hm1 : run s1 mid1 = some s2)
    (hcq : cq = .copy P ∨ cq = .copyLabel P lq) (hQ : new s2 t2 cq n2 = some (s3, Q))
    (hm2 : run s3 mid2 = some s4) (hD : delete s4 t1 P n3 = some (s5, k))
    (hn3 : n3 ≠ 0) (hpost : run s5 post = some s6) :
    ∃ dQ dP6, s6.heap Q = some dQ ∧ dQ.parent = some P ∧ dQ.threadID = t2 ∧
      s6.heap P = some dP6 ∧ dP6.label = dP.label ∧ dP6.level = dP.level ∧
      dP6.threadID = dP.threadID ∧ dP6.threadID = t1 ∧ dP6.endTime = n3 ∧
      dP6.endTime ≠ 0 := by
  have hi0 : Inv s0 := Inv.of_init.of_run h0
  have hi1 : Inv s1 := hi0.of_new hP
  have hi2 : Inv s2 := hi1.of_run hm1
  have hi3 : Inv s3 := hi2.of_new hQ
  have hi4 : Inv s4 := hi3.of_run hm2
  have hi5 : Inv s5 := hi4.of_delete hD
  obtain ⟨d1, -, hd1, -, -, -, htid1, -⟩ := new_record hi0 hP
  rw [hdP] at hd1
  have := Option.some.inj hd1
  subst this
  -- the record of Q
  obtain ⟨dq, -, hdq, -, -, -, htidq, -, -, -, -, -, hc1, hc2⟩ := new_record hi2 hQ
  have hqpar : dq.parent = some P := by
    rcases hcq with hc | hc
    · exact (hc1 P hc).1
    · exact (hc2 P lq hc).1
  obtain ⟨dq4, hdq4, hfq4⟩ := run_heap_frame hi3 hm2 hdq
  obtain ⟨dq5, hdq5, hfq5⟩ := step_heap_frame hi4 (step_of_delete hD) hdq4
  obtain ⟨dq6, hdq6, hfq6⟩ := run_heap_frame hi5 hpost hdq5
  -- the record of P
  obtain ⟨dp2, hdp2, hfp2⟩ := run_heap_frame hi1 hm1 hdP
  obtain ⟨dp3, hdp3, hfp3⟩ := step_heap_frame hi2 (step_of_new hQ) hdp2
  obtain ⟨dp4, hdp4, hfp4⟩ := run_heap_frame hi3 hm2 hdp3
  obtain ⟨dp4a, hdp4a, hdp5, -, hdead, -⟩ := step_heap_destroy (step_of_delete hD)
  rw [hdp4] at hdp4a
  have := Option.some.inj hdp4a
  subst this
  obtain ⟨hdp6, -⟩ := run_dead hi5 hpost hdp5 hdead
  refine ⟨dq6, _, hdq6, ?_, ?_, hdp6, ?_, ?_, ?_, ?_, rfl, hn3⟩
  · rw [hfq6, hfq5, hfq4]
    exact hqpar
  · rw [hfq6, hfq5, hfq4]
    exact htidq
  · show dp4.label = dP.label
    rw [hfp4, hfp3, hfp2]
  · show dp4.level = dP.level
    rw [hfp4, hfp3, hfp2]
  · show dp4.threadID = dP.threadID
    rw [hfp4, hfp3, hfp2]
  · show dp4.threadID = t1
    rw [hfp4, hfp3, hfp2]
    exact htid1

theorem detached_lifetime_witness :
    ∃ s1 s3 s5, new State.init 1 (.label "P") 10 = some (s1, .obj 0) ∧
      new s1 2 (.copyLabel (.obj 0) "Q") 20 = some (s3, .obj 1) ∧
      delete s3 1 (.obj 0) 30 = some (s5, 1) ∧
      ∃ dQ dP6, s5.heap (.obj 1) = some dQ ∧ dQ.parent = some (.obj 0) ∧
        dQ.threadID = 2 ∧ s5.heap (.obj 0) = some dP6 ∧ dP6.label = "P" ∧
        dP6.level = 0 ∧ dP6.threadID = 1 ∧ dP6.threadID = 1 ∧ dP6.endTime = 30 ∧
        dP6.endTime ≠ 0 :=
  ⟨_, _, _, rfl, rfl, rfl,
    detached_lifetime [] [] [] [] State.init _ _ _ _ _ _ 1 2 (.label "P")
      (.copyLabel (.obj 0) "Q") "Q" 10 20 30 1 (.obj 0) (.obj 1)
      ⟨some (.tl 1), some (.tl 1), "P", 0, 1, 10, 0⟩
      rfl rfl rfl rfl (Or.inr rfl) rfl rfl rfl (by decide) rfl⟩

/-- C8, as the code has it: as long as no scope has been opened and none has been
destroyed on thread `t`, the cursor of `t` points to the record made by the
initialiser of its `current_thread_local`: no parent, no
`previous_thread_local`, level -1, label "ThreadLocal". -/
theorem genesis_before_first_scope (pre : List Event) (s : State) (t : Nat)
    (hpre : run State.init pre = some s) (hno : ∀ e ∈ pre, e.tid ≠ t) :
    ∃ g d, s.current_thread_local t = some g ∧ s.heap g = some d ∧ d.parent = none ∧
      d.previous_thread_local = none ∧ d.level = -1 ∧ d.label = "ThreadLocal" ∧
      d.threadID = t ∧ d.startTime = 0 ∧ d.endTime = 0 := by
  refine ⟨.tl t, genesis t, ?_, (Inv.of_init.of_run hpre).gen t, rfl, rfl, rfl, rfl, rfl, rfl, rfl⟩
  rw [run_cursor_other hpre hno]
  rfl

theorem genesis_before_first_scope_witness :
    ∃ s, run State.init [.construct 1 (.label "P") 5, .construct 2 (.copy (.obj 0)) 7,
        .destroy 2 (.obj 0) 9] = some s ∧
      (∀ e ∈ [Event.construct 1 (.label "P") 5, .construct 2 (.copy (.obj 0)) 7,
        .destroy 2 (.obj 0) 9], e.tid ≠ 3) ∧
      ∃ g d, s.current_thread_local 3 = some g ∧ s.heap g = some d ∧ d.parent = none ∧
        d.previous_thread_local = none ∧ d.level = -1 ∧ d.label = "ThreadLocal" ∧
        d.threadID = 3 ∧ d.startTime = 0 ∧ d.endTime = 0 :=
  ⟨_, rfl, by decide,
    genesis_before_first_scope [.construct 1 (.label "P") 5, .construct 2 (.copy (.obj 0)) 7,
        .destroy 2 (.obj 0) 9] _ 3 rfl (by decide)⟩

/-- C8, as the claim states it, fails: thread 1 opens "P" and "R", then "R" is
destroyed on thread 2.  No scope has been opened on thread 2, and its current
span is the record of "P", which has a parent, level 0 and the label "P". -/
theorem genesis_before_first_scope_counterexample :
    ∃ s, run State.init [.construct 1 (.label "P") 1, .construct 1 (.label "R") 2,
        .destroy 2 (.obj 1) 3] = some s ∧
      (∀ e ∈ [Event.construct 1 (.label "P") 1, .construct 1 (.label "R") 2,
        .destroy 2 (.obj 1) 3], ∀ c now, e ≠ .construct 2 c now) ∧
      s.current_thread_local 2 = some (.obj 0) ∧
      s.heap (.obj 0) = some ⟨some (.tl 1), some (.tl 1), "P", 0, 1, 1, 0⟩ ∧
      ¬ ∃ g d, s.current_thread_local 2 = some g ∧ s.heap g = some d ∧
        d.parent = none ∧ d.previous_thread_local = none ∧ d.level = -1 ∧
        d.label = "ThreadLocal" :=
  ⟨_, rfl, by
    intro e he c now hc
    subst hc
    simp at he, rfl, rfl, by
    rintro ⟨g, d, hg, hd, hp, -⟩
    have hg2 : g = Addr.obj 0 := (Option.some.inj hg).symm
    subst hg2
    have hd2 : d = ⟨some (.tl 1), some (.tl 1), "P", 0, 1, 1, 0⟩ := (Option.some.inj hd).symm
    subst hd2
    exact Option.noConfusion hp⟩

/-- C9: in a state the program can reach, `TraceContext()` and
`TraceContext(label)` on thread `T` both return a new record whose parent is the
cursor of `T` at the call; the label is "noname1" for the first and the given
label for the second. -/
theorem ambient_modes (pre : List Event) (s : State) (T : Nat) (label_ : String)
    (now : Int) (hpre : run State.init pre = some s) :
    (∃ s1 a d, new s T .default now = some (s1, a) ∧ s.heap a = none ∧
      s1.heap a = some d ∧ d.parent = s.current_thread_local T ∧ d.label = "noname1") ∧
    (∃ s1 a d, new s T (.label label_) now = some (s1, a) ∧ s.heap a = none ∧
      s1.heap a = some d ∧ d.parent = s.current_thread_local T ∧ d.label = label_) := by
  have hi : Inv s := Inv.of_init.of_run hpre
  refine ⟨?_, ?_⟩
  · obtain ⟨s1, a, h⟩ := hi.ctor_returns T .default now (by simp)
    obtain ⟨d, hf, hd, -, -, -, -, -, -, -, hc, -⟩ := new_record hi h
    exact ⟨s1, a, d, h, hf, hd, hc rfl⟩
  · obtain ⟨s1, a, h⟩ := hi.ctor_returns T (.label label_) now (by simp)
    obtain ⟨d, hf, hd, -, -, -, -, -, -, -, -, hc, -⟩ := new_record hi h
    exact ⟨s1, a, d, h, hf, hd, hc label_ rfl⟩

theorem ambient_modes_witness :
    ∃ s, run State.init [.construct 4 (.label "outer") 1] = some s ∧
      s.current_thread_local 4 = some (.obj 0) ∧
      (∃ s1 a d, new s 4 .default 2 = some (s1, a) ∧ s.heap a = none ∧
        s1.heap a = some d ∧ d.parent = s.current_thread_local 4 ∧ d.label = "noname1") ∧
      (∃ s1 a d, new s 4 (.label "inner") 2 = some (s1, a) ∧ s.heap a = none ∧
        s1.heap a = some d ∧ d.parent = s.current_thread_local 4 ∧ d.label = "inner") :=
  ⟨_, rfl, rfl, ambient_modes [.construct 4 (.label "outer") 1] _ 4 "inner" 2 rfl⟩

/-- C10: in a state the program can reach, with `other` an object that is alive,
`TraceContext(other)` and `TraceContext(other, label)` on any thread `T` both
return a new record whose parent is the record of `other`, whatever the cursor
of `T` is; the label is empty for the first and the given label for the second;
the cursor of `T` becomes the new record, whose `previous_thread_local` is the
cursor of `T` before the call. -/
theorem copy_modes (pre : List Event) (s : State) (T : Nat) (other : Addr)
    (label_ : String) (now : Int) (hpre : run State.init pre = some s)
    (hlive : other ∈ s.live) :
    (∃ s1 a d, new s T (.copy other) now = some (s1, a) ∧ s.heap a = none ∧
      s1.heap a = some d ∧ d.parent = some other ∧ d.label = "" ∧
      s1.current_thread_local T = some a ∧
      d.previous_thread_local = s.current_thread_local T) ∧
    (∃ s1 a d, new s T (.copyLabel other label_) now = some (s1, a) ∧ s.heap a = none ∧
      s1.heap a = some d ∧ d.parent = some other ∧ d.label = label_ ∧
      s1.current_thread_local T = some a ∧
      d.previous_thread_local = s.current_thread_local T) := by
  have hi : Inv s := Inv.of_init.of_run hpre
  refine ⟨?_, ?_⟩
  · obtain ⟨s1, a, h⟩ := hi.ctor_returns T (.copy other) now (by
      intro q hq
      rcases hq with hq | ⟨l, hq⟩
      · injection hq with e1
        exact e1 ▸ hlive
      · exact Ctor.noConfusion hq)
    obtain ⟨d, hf, hd, -, hcur, hprev, -, -, -, -, -, -, hc, -⟩ := new_record hi h
    obtain ⟨e1, e2⟩ := hc other rfl
    exact ⟨s1, a, d, h, hf, hd, e1, e2, hcur, hprev⟩
  · obtain ⟨s1, a, h⟩ := hi.ctor_returns T (.copyLabel other label_) now (by
      intro q hq
      rcases hq with hq | ⟨l, hq⟩
      · exact Ctor.noConfusion hq
      · injection hq with e1 e2
        exact e1 ▸ hlive)
    obtain ⟨d, hf, hd, -, hcur, hprev, -, -, -, -, -, -, -, hc⟩ := new_record hi h
    obtain ⟨e1, e2⟩ := hc other label_ rfl
    exact ⟨s1, a, d, h, hf, hd, e1, e2, hcur, hprev⟩

theorem copy_modes_witness :
    ∃ s, run State.init [.construct 1 (.label "parentContext") 1,
        .construct 2 (.label "busy") 2] = some s ∧
      Addr.obj 0 ∈ s.live ∧
      (∃ s1 a d, new s 2 (.copy (.obj 0)) 3 = some (s1, a) ∧ s.heap a = none ∧
        s1.heap a = some d ∧ d.parent = some (.obj 0) ∧ d.label = "" ∧
        s1.current_thread_local 2 = some a ∧
        d.previous_thread_local = s.current_thread_local 2) ∧
      (∃ s1 a d, new s 2 (.copyLabel (.obj 0) "childContext") 3 = some (s1, a) ∧
        s.heap a = none ∧ s1.heap a = some d ∧ d.parent = some (.obj 0) ∧
        d.label = "childContext" ∧ s1.current_thread_local 2 = some a ∧
        d.previous_thread_local = s.current_thread_local 2) :=
  ⟨_, rfl, by decide,
    copy_modes [.construct 1 (.label "parentContext") 1, .construct 2 (.label "busy") 2] _ 2
      (.obj 0) "childContext" 3 rfl (by decide)⟩

/-! ## Parents and levels in the reachable states -/

theorem rooted_init : Rooted State.init where
  obj_parent := fun n d had => by simp [State.init] at had
  level_ge := fun a d had => by
    cases a with
    | tl t =>
      have h2 : State.init.heap (.tl t) = some (genesis t) := rfl
      rw [h2] at had
      rw [← Option.some.inj had]
      simp [genesis]
    | obj n => simp [State.init] at had

/-- The records after a call come from the records before it, up to `endTime`,
apart from the record the call has made. -/
theorem step_heap_back {s s1 : State} {e : Event} {b : Addr} {d1 : Data}
    (h : step s e = some s1) (hb : s1.heap b = some d1) :
    (∃ d, s.heap b = some d ∧ d1 = { d with endTime := d1.endTime }) ∨
      ∃ tid c now, e = .construct tid c now ∧ new s tid c now = some (s1, b) := by
  cases e with
  | construct tid c now =>
    obtain ⟨a, ha⟩ := step_construct h
    obtain ⟨p, l, hs, -⟩ := new_eq_scope ha
    obtain ⟨d0, -, -, hheap, -⟩ := scope_new_spec hs
    by_cases hba : b = a
    · subst hba
      exact Or.inr ⟨tid, c, now, rfl, ha⟩
    · rw [hheap, Function.update_noteq hba] at hb
      exact Or.inl ⟨d1, hb, rfl⟩
  | destroy tid a now =>
    obtain ⟨k, hk⟩ := step_destroy h
    obtain ⟨-, hs⟩ := delete_eq_scope hk
    obtain ⟨d0, hd0, hheap, -⟩ := scope_delete_spec hs
    by_cases hba : b = a
    · subst hba
      rw [hheap, Function.update_same] at hb
      rw [← Option.some.inj hb]
      exact Or.inl ⟨d0, hd0, rfl⟩
    · rw [hheap, Function.update_noteq hba] at hb
      exact Or.inl ⟨d1, hb, rfl⟩

/-- A record made by one of the four constructors has a parent. -/
theorem new_has_parent {s s1 : State} {tid : Nat} {c : Ctor} {now : Int} {a : Addr}
    {d : Data} (hi : Inv s) (h : new s tid c now = some (s1, a))
    (hd : s1.heap a = some d) : ∃ p pd, d.parent = some p ∧ s.heap p = some pd ∧
      d.level = pd.level + 1 := by
  obtain ⟨d0, -, hd0, -, -, -, -, -, -, hpar, h1, h2, h3, h4⟩ := new_record hi h
  rw [hd] at hd0
  have := Option.some.inj hd0
  subst this
  obtain ⟨cur, dc, hcur, -⟩ := hi.cur_ok tid
  have hp : ∃ p, d.parent = some p := by
    cases c with
    | default => exact ⟨cur, (h1 rfl).1.trans hcur⟩
    | label l => exact ⟨cur, (h2 l rfl).1.trans hcur⟩
    | copy q => exact ⟨q, (h3 q rfl).1⟩
    | copyLabel q l => exact ⟨q, (h4 q l rfl).1⟩
  obtain ⟨p, hp⟩ := hp
  obtain ⟨pd, hpd, -, hl⟩ := hpar p hp
  exact ⟨p, pd, hp, hpd, hl⟩

theorem rooted_step {s s1 : State} {e : Event} (hi : Inv s) (hr : Rooted s)
    (h : step s e = some s1) : Rooted s1 := by
  refine ⟨?_, ?_⟩
  · intro n d1 hd1
    rcases step_heap_back h hd1 with ⟨d, hd, hfr⟩ | ⟨tid, c, now, -, hn⟩
    · obtain ⟨p, hp⟩ := hr.obj_parent n d hd
      exact ⟨p, by rw [hfr]; exact hp⟩
    · obtain ⟨p, pd, hp, -⟩ := new_has_parent hi hn hd1
      exact ⟨p, hp⟩
  · intro a d1 hd1
    rcases step_heap_back h hd1 with ⟨d, hd, hfr⟩ | ⟨tid, c, now, -, hn⟩
    · have := hr.level_ge a d hd
      rw [hfr]
      exact this
    · obtain ⟨p, pd, -, hpd, hl⟩ := new_has_parent hi hn hd1
      have := hr.level_ge p pd hpd
      omega

theorem rooted_run {s s1 : State} {es : List Event} (hi : Inv s) (hr : Rooted s)
    (h : run s es = some s1) : Rooted s1 := by
  induction es generalizing s with
  | nil =>
    simp only [run, Option.some.injEq] at h
    exact h ▸ hr
  | cons e es ih =>
    obtain ⟨s2, h1, h2⟩ := run_cons h
    exact ih (hi.of_step h1) (rooted_step hi hr h1) h2

/-- In a state the program can reach, the level of the `n`-th record made by
`Scope::Scope` is at most `n`: a level of `INT_MAX` takes `2^31` allocations. -/
theorem level_le_index {tr : List Event} {s : State} (hrun : run State.init tr = some s) :
    ∀ n d, s.heap (.obj n) = some d → d.level ≤ n := by
  have key : ∀ (es : List Event) (s0 s1 : State), Inv s0 →
      (∀ n d, s0.heap (.obj n) = some d → d.level ≤ n) → run s0 es = some s1 →
      ∀ n d, s1.heap (.obj n) = some d → d.level ≤ n := by
    intro es
    induction es with
    | nil =>
      intro s0 s1 _ h0 h
      simp only [run, Option.some.injEq] at h
      exact h ▸ h0
    | cons e es ih =>
      intro s0 s1 hi0 h0 h
      obtain ⟨s2, h1, h2⟩ := run_cons h
      refine ih s2 s1 (hi0.of_step h1) ?_ h2
      intro n d hd
      rcases step_heap_back h1 hd with ⟨d0, hd0, hfr⟩ | ⟨tid, c, now, -, hn⟩
      · have := h0 n d0 hd0
        rw [hfr]
        exact this
      · obtain ⟨p, pd, -, hpd, hl⟩ := new_has_parent hi0 hn hd
        obtain ⟨p0, l0, hs0, -⟩ := new_eq_scope hn
        obtain ⟨-, -, han, -⟩ := scope_new_spec hs0
        injection han with han
        cases p with
        | tl t =>
          rw [hi0.gen t] at hpd
          rw [← Option.some.inj hpd] at hl
          simp only [genesis] at hl
          omega
        | obj m =>
          have hm := h0 m pd hpd
          have hlt : m < s0.next := by
            by_contra hc
            rw [hi0.fresh m (by omega)] at hpd
            exact Option.noConfusion hpd
          omega
  exact key tr State.init s Inv.of_init (fun n d hd => by simp [State.init] at hd) hrun

/-- A run without a destruction of the object holding `a` leaves the record at
`a` as it is. -/
theorem run_heap_other {s s1 : State} {es : List Event} {a : Addr} {d : Data}
    (hi : Inv s) (h : run s es = some s1) (ha : s.heap a = some d)
    (hno : ∀ tid now, Event.destroy tid a now ∉ es) : s1.heap a = some d := by
  induction es generalizing s with
  | nil =>
    simp only [run, Option.some.injEq] at h
    exact h ▸ ha
  | cons e es ih =>
    obtain ⟨s2, h1, h2⟩ := run_cons h
    refine ih (hi.of_step h1) h2 ?_ (fun tid now hm => hno tid now (List.mem_cons_of_mem _ hm))
    refine step_heap_other hi h1 ha ?_
    intro tid now he
    exact hno tid now (he ▸ List.mem_cons_self _ _)

/-- C11: the constructor and the destructor of `Scope`, run on thread `T`, and so
every call of the class run on `T`, leave the cursor of every other thread `U`
as it was. -/
theorem cursor_thread_isolation (s : State) (T U : Nat) (hne : U ≠ T) :
    (∀ p l now s1 a, Scope.new s T p l now = some (s1, a) →
      s1.current_thread_local U = s.current_thread_local U) ∧
    (∀ data now s1 k, Scope.delete s T data now = some (s1, k) →
      s1.current_thread_local U = s.current_thread_local U) ∧
    (∀ e s1, e.tid = T → step s e = some s1 →
      s1.current_thread_local U = s.current_thread_local U) := by
  refine ⟨?_, ?_, ?_⟩
  · intro p l now s1 a h
    obtain ⟨d0, -, -, -, -, hcur, -⟩ := scope_new_spec h
    rw [hcur, Function.update_noteq hne]
  · intro data now s1 k h
    obtain ⟨d0, -, -, -, hcur, -⟩ := scope_delete_spec h
    rw [hcur, Function.update_noteq hne]
  · intro e s1 he h
    exact step_cursor_other h (fun hc => hne (hc.symm.trans he))

theorem cursor_thread_isolation_witness :
    (7 : Nat) ≠ 1 ∧
    ∃ s s1 s2, new State.init 7 (.label "U") 1 = some (s, .obj 0) ∧
      Scope.new s 1 (some (.obj 0)) "T" 2 = some (s1, .obj 1) ∧
      Scope.delete s1 1 (.obj 1) 3 = some (s2, 1) ∧
      s.current_thread_local 7 = some (.obj 0) ∧
      s1.current_thread_local 7 = s.current_thread_local 7 ∧
      s2.current_thread_local 7 = s1.current_thread_local 7 :=
  ⟨by decide, _, _, _, rfl, rfl, rfl, rfl,
    (cursor_thread_isolation _ 1 7 (by decide)).1 (some (.obj 0)) "T" 2 _ (.obj 1) rfl,
    (cursor_thread_isolation _ 1 7 (by decide)).2.1 (.obj 1) 3 _ 1 rfl⟩

/-- C12: in a state the program can reach, a call leaves `label`, `parent`,
`level`, `threadID`, `previous_thread_local` and `startTime` of every existing
record as they are, and leaves its `endTime` as it is unless the call is the
destruction of the object holding that record; the same holds of every run of
calls. -/
theorem record_immutability (pre : List Event) (s : State) (a : Addr) (d : Data)
    (hpre : run State.init pre = some s) (ha : s.heap a = some d) :
    (∀ e s1, step s e = some s1 →
      ∃ d1, s1.heap a = some d1 ∧ d1.label = d.label ∧ d1.parent = d.parent ∧
        d1.level = d.level ∧ d1.threadID = d.threadID ∧
        d1.previous_thread_local = d.previous_thread_local ∧
        d1.startTime = d.startTime ∧
        ((∀ tid now, e ≠ .destroy tid a now) → d1.endTime = d.endTime) ∧
        (∀ tid now, e = .destroy tid a now → a ∈ s.live ∧ d1.endTime = now)) ∧
    (∀ es s2, run s es = some s2 →
      ∃ d2, s2.heap a = some d2 ∧ d2.label = d.label ∧ d2.parent = d.parent ∧
        d2.level = d.level ∧ d2.threadID = d.threadID ∧
        d2.previous_thread_local = d.previous_thread_local ∧
        d2.startTime = d.startTime ∧
        ((∀ tid now, Event.destroy tid a now ∉ es) → d2.endTime = d.endTime)) := by
  have hi : Inv s := Inv.of_init.of_run hpre
  refine ⟨?_, ?_⟩
  · intro e s1 h
    obtain ⟨d1, hd1, hfr⟩ := step_heap_frame hi h ha
    refine ⟨d1, hd1, by rw [hfr], by rw [hfr], by rw [hfr], by rw [hfr], by rw [hfr],
      by rw [hfr], ?_, ?_⟩
    · intro hne
      have := step_heap_other hi h ha hne
      rw [hd1] at this
      rw [Option.some.inj this]
    · intro tid now he
      subst he
      obtain ⟨d0, hd0, hd2, hlv, -⟩ := step_heap_destroy h
      rw [hd1] at hd2
      rw [Option.some.inj hd2]
      exact ⟨hlv, rfl⟩
  · intro es s2 h
    obtain ⟨d2, hd2, hfr⟩ := run_heap_frame hi h ha
    refine ⟨d2, hd2, by rw [hfr], by rw [hfr], by rw [hfr], by rw [hfr], by rw [hfr],
      by rw [hfr], ?_⟩
    intro hno
    have := run_heap_other hi h ha hno
    rw [hd2] at this
    rw [Option.some.inj this]

theorem record_immutability_witness :
    ∃ s, run State.init [.construct 1 (.label "P") 5, .construct 2 (.copy (.obj 0)) 7] =
        some s ∧
      s.heap (.obj 0) = some ⟨some (.tl 1), some (.tl 1), "P", 0, 1, 5, 0⟩ ∧
      ∃ s2, run s [.destroy 2 (.obj 1) 8, .destroy 1 (.obj 0) 9] = some s2 ∧
        ∃ d2, s2.heap (.obj 0) = some d2 ∧ d2.label = "P" ∧ d2.parent = some (.tl 1) ∧
          d2.level = 0 ∧ d2.threadID = 1 ∧ d2.previous_thread_local = some (.tl 1) ∧
          d2.startTime = 5 ∧
          ((∀ tid now, Event.destroy tid (.obj 0) now ∉
              [Event.destroy 2 (.obj 1) 8, .destroy 1 (.obj 0) 9]) → d2.endTime = 0) :=
  ⟨_, rfl, rfl, _, rfl,
    (record_immutability [.construct 1 (.label "P") 5, .construct 2 (.copy (.obj 0)) 7] _
      (.obj 0) ⟨some (.tl 1), some (.tl 1), "P", 0, 1, 5, 0⟩ rfl rfl).2
      [.destroy 2 (.obj 1) 8, .destroy 1 (.obj 0) 9] _ rfl⟩

/-- What `Scope(p, l)` leaves behind: a record at an address that held none,
with `parent = p`, `label = l` and `endTime` unset, owned by an object that is
alive. -/
theorem scope_new_record {s s1 : State} {tid : Nat} {p : Option Addr} {l : String}
    {now : Int} {a : Addr} (hi : Inv s) (h : Scope.new s tid p l now = some (s1, a)) :
    ∃ d, s.heap a = none ∧ s1.heap a = some d ∧ a ∈ s1.live ∧ d.parent = p ∧
      d.label = l ∧ d.endTime = 0 := by
  obtain ⟨d0, hd0, ha, hheap, -, -, hlive⟩ := scope_new_spec h
  obtain ⟨hpar, -, hlab, -, -, hend, -⟩ := data_new_spec hd0
  have hnew := congrFun hheap a
  rw [Function.update_same] at hnew
  refine ⟨_, ?_, hnew, ?_, hpar, hlab, hend⟩
  · rw [ha]
    exact hi.fresh _ le_rfl
  · rw [hlive]
    exact List.mem_cons_self _ _

/-- C13: two scopes constructed with the same parent and the same label, both
open, hold two different records; the destruction of either of them returns and
writes the clock value into `endTime` of its own record, while `endTime` of the
other record stays unset. -/
theorem scope_uniqueness (pre mid : List Event) (s s1 s2 s3 : State) (T1 T2 : Nat)
    (p : Option Addr) (l : String) (n1 n2 : Int) (a b : Addr)
    (hpre : run State.init pre = some s) (h1 : Scope.new s T1 p l n1 = some (s1, a))
    (hmid : run s1 mid = some s2) (h2 : Scope.new s2 T2 p l n2 = some (s3, b))
    (hopen : a ∈ s3.live) :
    a ≠ b ∧
    (∃ da db, s3.heap a = some da ∧ s3.heap b = some db ∧ da.parent = p ∧
      db.parent = p ∧ da.label = l ∧ db.label = l ∧ da.endTime = 0 ∧ db.endTime = 0) ∧
    (∀ T3 n3, ∃ s4 k da db, delete s3 T3 a n3 = some (s4, k) ∧ s4.heap a = some da ∧
      da.endTime = n3 ∧ s4.heap b = some db ∧ db.endTime = 0) ∧
    (∀ T3 n3, ∃ s4 k da db, delete s3 T3 b n3 = some (s4, k) ∧ s4.heap b = some db ∧
      db.endTime = n3 ∧ s4.heap a = some da ∧ da.endTime = 0) := by
  have hi : Inv s := Inv.of_init.of_run hpre
  have hi1 : Inv s1 := hi.of_scope_new h1
  have hi2 : Inv s2 := hi1.of_run hmid
  have hi3 : Inv s3 := hi2.of_scope_new h2
  obtain ⟨da1, -, hda1, -, hpa, hla, -⟩ := scope_new_record hi h1
  obtain ⟨da2, hda2, hfa2⟩ := run_heap_frame hi1 hmid hda1
  obtain ⟨db, hbfresh, hdb, hblive, hpb, hlb, heb⟩ := scope_new_record hi2 h2
  have hab : a ≠ b := by
    intro hc
    rw [← hc, hda2] at hbfresh
    exact Option.noConfusion hbfresh
  obtain ⟨-, da, -, hda, hea⟩ := hi3.live_ok a hopen
  have hda3 : s3.heap a = some da2 := by
    obtain ⟨d0, -, hb0, hheap, -⟩ := scope_new_spec h2
    rw [hheap, Function.update_noteq hab]
    exact hda2
  rw [hda] at hda3
  have := Option.some.inj hda3
  subst this
  refine ⟨hab, ⟨da, db, hda, hdb, ?_, hpb, ?_, hlb, hea, heb⟩, ?_, ?_⟩
  · rw [hfa2]
    exact hpa
  · rw [hfa2]
    exact hla
  · intro T3 n3
    obtain ⟨s4, k, hdel⟩ := hi3.dtor_returns T3 n3 hopen
    obtain ⟨d0, hd0, hd4, -⟩ := step_heap_destroy (step_of_delete hdel)
    have hb4 := step_heap_other hi3 (step_of_delete hdel) hdb (by
      intro tid now he
      injection he with _ e2 _
      exact hab e2)
    exact ⟨s4, k, _, db, hdel, hd4, rfl, hb4, heb⟩
  · intro T3 n3
    obtain ⟨s4, k, hdel⟩ := hi3.dtor_returns T3 n3 hblive
    obtain ⟨d0, hd0, hd4, -⟩ := step_heap_destroy (step_of_delete hdel)
    have ha4 := step_heap_other hi3 (step_of_delete hdel) hda (by
      intro tid now he
      injection he with _ e2 _
      exact hab e2.symm)
    exact ⟨s4, k, da, _, hdel, hd4, rfl, ha4, hea⟩

theorem scope_uniqueness_witness :
    ∃ s1 s3, Scope.new State.init 1 (some (.tl 1)) "same" 1 = some (s1, .obj 0) ∧
      Scope.new s1 1 (some (.tl 1)) "same" 2 = some (s3, .obj 1) ∧
      Addr.obj 0 ∈ s3.live ∧ Addr.obj 0 ≠ Addr.obj 1 ∧
      (∃ s4 k da db, delete s3 1 (.obj 0) 3 = some (s4, k) ∧
        s4.heap (.obj 0) = some da ∧ da.endTime = 3 ∧ s4.heap (.obj 1) = some db ∧
        db.endTime = 0) ∧
      (∃ s4 k da db, delete s3 1 (.obj 1) 3 = some (s4, k) ∧
        s4.heap (.obj 1) = some db ∧ db.endTime = 3 ∧ s4.heap (.obj 0) = some da ∧
        da.endTime = 0) :=
  ⟨_, _, rfl, rfl, by decide,
    (scope_uniqueness [] [] State.init _ _ _ 1 1 (some (.tl 1)) "same" 1 2 (.obj 0) (.obj 1)
      rfl rfl rfl rfl (by decide)).1,
    (scope_uniqueness [] [] State.init _ _ _ 1 1 (some (.tl 1)) "same" 1 2 (.obj 0) (.obj 1)
      rfl rfl rfl rfl (by decide)).2.2.1 1 3,
    (scope_uniqueness [] [] State.init _ _ _ 1 1 (some (.tl 1)) "same" 1 2 (.obj 0) (.obj 1)
      rfl rfl rfl rfl (by decide)).2.2.2 1 3⟩

/-- C14: an object is constructed on thread `A`; later, while it is alive, its
destruction on any thread `T` returns and sets the cursor of `T` to the cursor
`A` had just before the construction, which the record holds as
`previous_thread_local`, whatever was run in between and whatever the cursor of
`T` was; the cursor of every other thread, that of `A` included when `T` is not
`A`, stays as it was. -/
theorem unconditional_restore (pre mid : List Event) (s0 s1 s2 : State) (A T : Nat)
    (c : Ctor) (n1 n2 : Int) (h : Addr) (hpre : run State.init pre = some s0)
    (hnew : new s0 A c n1 = some (s1, h)) (hmid : run s1 mid = some s2)
    (hlive : h ∈ s2.live) :
    ∃ s3 k d, delete s2 T h n2 = some (s3, k) ∧ s2.heap h = some d ∧
      d.previous_thread_local = s0.current_thread_local A ∧
      s3.current_thread_local T = s0.current_thread_local A ∧
      (∀ U, U ≠ T → s3.current_thread_local U = s2.current_thread_local U) ∧
      (T ≠ A → s3.current_thread_local A = s2.current_thread_local A) := by
  have hi0 : Inv s0 := Inv.of_init.of_run hpre
  have hi1 : Inv s1 := hi0.of_new hnew
  have hi2 : Inv s2 := hi1.of_run hmid
  obtain ⟨d1, -, hd1, -, -, hprev, -⟩ := new_record hi0 hnew
  obtain ⟨d2, hd2, hfr⟩ := run_heap_frame hi1 hmid hd1
  obtain ⟨s3, k, hdel⟩ := hi2.dtor_returns T n2 hlive
  obtain ⟨d0, hd0, -, -, -, hcur⟩ := step_heap_destroy (step_of_delete hdel)
  rw [hd2] at hd0
  have := Option.some.inj hd0
  subst this
  have hp2 : d2.previous_thread_local = s0.current_thread_local A := by
    rw [hfr]
    exact hprev
  have hoth : ∀ U, U ≠ T → s3.current_thread_local U = s2.current_thread_local U := by
    intro U hU
    exact step_cursor_other (step_of_delete hdel) (fun hc => hU hc.symm)
  exact ⟨s3, k, d2, hdel, hd2, hp2, hcur.trans hp2, hoth, fun hTA => hoth A (fun hc => hTA hc.symm)⟩

theorem unconditional_restore_witness :
    ∃ s1 s2, new State.init 1 (.label "outer") 1 = some (s1, .obj 0) ∧
      run s1 [.construct 1 (.label "inner") 2, .construct 2 (.label "busy") 3] = some s2 ∧
      Addr.obj 0 ∈ s2.live ∧ s2.current_thread_local 2 = some (.obj 2) ∧
      ∃ s3 k d, delete s2 2 (.obj 0) 4 = some (s3, k) ∧ s2.heap (.obj 0) = some d ∧
        d.previous_thread_local = State.init.current_thread_local 1 ∧
        s3.current_thread_local 2 = State.init.current_thread_local 1 ∧
        (∀ U, U ≠ 2 → s3.current_thread_local U = s2.current_thread_local U) ∧
        ((2 : Nat) ≠ 1 → s3.current_thread_local 1 = s2.current_thread_local 1) :=
  ⟨_, _, rfl, rfl, by decide, rfl,
    unconditional_restore [] [.construct 1 (.label "inner") 2, .construct 2 (.label "busy") 3]
      State.init _ _ 1 2 (.label "outer") 1 4 (.obj 0) rfl rfl rfl (by decide)⟩

/-- C15: in a state the program can reach, on any thread `t`: open "A", open "B"
inside it, destroy "A", destroy "B".  All four calls return, and at the end the
cursor of `t` is the record of "A", whose object is no longer alive and whose
`endTime` holds the clock value read at its destruction, and not what the cursor
of `t` was before "A" was opened. -/
theorem out_of_order_destruction (pre : List Event) (s : State) (t : Nat)
    (la lb : String) (n1 n2 n3 n4 : Int) (hpre : run State.init pre = some s) :
    ∃ s1 a s2 b s3 k3 s4 k4 da db, new s t (.label la) n1 = some (s1, a) ∧
      new s1 t (.label lb) n2 = some (s2, b) ∧ delete s2 t a n3 = some (s3, k3) ∧
      delete s3 t b n4 = some (s4, k4) ∧ s4.current_thread_local t = some a ∧
      s4.heap a = some da ∧ da.endTime = n3 ∧ a ∉ s4.live ∧
      s4.heap b = some db ∧ db.parent = some a ∧
      s4.current_thread_local t ≠ s.current_thread_local t := by
  have hi : Inv s := Inv.of_init.of_run hpre
  obtain ⟨s1, a, hA⟩ := hi.ctor_returns t (.label la) n1 (by simp)
  have hi1 : Inv s1 := hi.of_new hA
  obtain ⟨da1, hafresh, hda1, halive1, hcur1, -⟩ := new_record hi hA
  obtain ⟨s2, b, hB⟩ := hi1.ctor_returns t (.label lb) n2 (by simp)
  have hi2 : Inv s2 := hi1.of_new hB
  obtain ⟨db2, hbfresh, hdb2, hblive2, hcur2, hprevb, -, -, -, -, -, hlb, -⟩ :=
    new_record hi1 hB
  have hab : a ≠ b := by
    intro hc
    rw [← hc, hda1] at hbfresh
    exact Option.noConfusion hbfresh
  have hparb : db2.parent = some a := ((hlb lb rfl).1).trans hcur1
  have hda2 : s2.heap a = some da1 :=
    step_heap_other hi1 (step_of_new hB) hda1 (fun _ _ he => Event.noConfusion he)
  have hrun2 : run s1 [.construct t (.label lb) n2] = some s2 := by
    simp only [run, step_of_new hB]
  have halive2 : a ∈ s2.live := run_live_keep hrun2 halive1 (by simp)
  obtain ⟨s3, k3, hDA⟩ := hi2.dtor_returns t n3 halive2
  have hi3 : Inv s3 := hi2.of_delete hDA
  obtain ⟨d0, hd0, hda3, -, hadead3, -⟩ := step_heap_destroy (step_of_delete hDA)
  rw [hda2] at hd0
  have := Option.some.inj hd0
  subst this
  have hdb3 : s3.heap b = some db2 :=
    step_heap_other hi2 (step_of_delete hDA) hdb2 (by
      intro tid now he
      injection he with _ e2 _
      exact hab e2)
  have hrun3 : run s2 [.destroy t a n3] = some s3 := by
    simp only [run, step_of_delete hDA]
  have hblive3 : b ∈ s3.live := run_live_keep hrun3 hblive2 (by
    intro tid now hm
    rw [List.mem_singleton] at hm
    injection hm with _ e2 _
    exact hab e2.symm)
  obtain ⟨s4, k4, hDB⟩ := hi3.dtor_returns t n4 hblive3
  obtain ⟨d1, hd1, hdb4, -, -, hcur4⟩ := step_heap_destroy (step_of_delete hDB)
  rw [hdb3] at hd1
  have := Option.some.inj hd1
  subst this
  obtain ⟨hda4, hadead4⟩ := step_dead hi3 (step_of_delete hDB) hda3 hadead3
  have hc4 : s4.current_thread_local t = some a := by
    rw [hcur4, hprevb]
    exact hcur1
  refine ⟨s1, a, s2, b, s3, k3, s4, k4, _, _, hA, hB, hDA, hDB, hc4, hda4, rfl, hadead4,
    hdb4, hparb, ?_⟩
  rw [hc4]
  obtain ⟨cur, dc, hcur, hdc⟩ := hi.cur_ok t
  rw [hcur]
  intro hc
  have := Option.some.inj hc
  rw [this, hdc] at hafresh
  exact Option.noConfusion hafresh

theorem out_of_order_destruction_witness :
    run State.init [] = some State.init ∧
    ∃ s, run State.init [.construct 0 (.label "A") 1, .construct 0 (.label "B") 2,
        .destroy 0 (.obj 0) 3, .destroy 0 (.obj 1) 4] = some s ∧
      s.current_thread_local 0 = some (.obj 0) ∧
      s.heap (.obj 0) = some ⟨some (.tl 0), some (.tl 0), "A", 0, 0, 1, 3⟩ ∧
      State.init.current_thread_local 0 = some (.tl 0) ∧
      ∃ s1 a s2 b s3 k3 s4 k4 da db, new State.init 0 (.label "A") 1 = some (s1, a) ∧
        new s1 0 (.label "B") 2 = some (s2, b) ∧ delete s2 0 a 3 = some (s3, k3) ∧
        delete s3 0 b 4 = some (s4, k4) ∧ s4.current_thread_local 0 = some a ∧
        s4.heap a = some da ∧ da.endTime = 3 ∧ a ∉ s4.live ∧
        s4.heap b = some db ∧ db.parent = some a ∧
        s4.current_thread_local 0 ≠ State.init.current_thread_local 0 :=
  ⟨rfl, _, rfl, rfl, rfl, rfl,
    out_of_order_destruction [] State.init 0 "A" "B" 1 2 3 4 rfl⟩

/-! ## The flag printed by the destructor -/

/-- In a state the program can reach no record is its own parent. -/
theorem parent_ne_self {s : State} (hi : Inv s) {a p : Addr} {d : Data}
    (ha : s.heap a = some d) (hp : d.parent = some p) : p ≠ a := by
  intro hc
  subst hc
  obtain ⟨pd, hpd, hl⟩ := hi.parent_ok p d ha p hp
  rw [ha] at hpd
  rw [← Option.some.inj hpd] at hl
  omega

/-- The flag returned by a destruction, from the record destroyed and its
parent as they were before the call. -/
theorem delete_flag {s s1 : State} {T : Nat} {h : Addr} {now k : Int} {d : Data}
    (hi : Inv s) (hdel : delete s T h now = some (s1, k)) (hd : s.heap h = some d) :
    (d.parent = none → k = -1) ∧
      ∀ p pd, d.parent = some p → s.heap p = some pd →
        k = if pd.endTime ≠ 0 then 0 else 1 := by
  obtain ⟨-, hs⟩ := delete_eq_scope hdel
  obtain ⟨d0, hd0, hheap, -, -, -, hflag⟩ := scope_delete_spec hs
  rw [hd] at hd0
  have := Option.some.inj hd0
  subst this
  unfold parentActive at hflag
  refine ⟨?_, ?_⟩
  · intro hp
    simp only [hp, Option.some.injEq] at hflag
    exact hflag.symm
  · intro p pd hp hpd
    have hne : p ≠ h := parent_ne_self hi hd hp
    have hp1 : s1.heap p = some pd := by
      rw [hheap, Function.update_noteq hne]
      exact hpd
    simp only [hp, hp1, Option.some.injEq] at hflag
    exact hflag.symm

/-- C16: `~Scope` run on the record `d` at `data` returns the flag -1 when `d`
has no parent, 1 when its parent's `endTime` is zero, and 0 when its parent's
`endTime` is not zero.  In a state the program can reach, the flag of a
destruction is therefore 1 exactly when the parent's `endTime` is unset, it is 1
when the parent's object is still alive, and it is 0 when the parent's object
was destroyed earlier at a clock value other than zero. -/
theorem parent_open_diagnostic (s : State) (T : Nat) (data : Addr) (now : Int) (d : Data)
    (hd : s.heap data = some d) :
    (d.parent = none → ∃ s1, Scope.delete s T data now = some (s1, -1)) ∧
    (∀ p pd, d.parent = some p → p ≠ data → s.heap p = some pd →
      (pd.endTime = 0 → ∃ s1, Scope.delete s T data now = some (s1, 1)) ∧
      (pd.endTime ≠ 0 → ∃ s1, Scope.delete s T data now = some (s1, 0))) ∧
    (∀ pre s1 k p, run State.init pre = some s → delete s T data now = some (s1, k) →
      d.parent = some p →
      (∃ pd, s.heap p = some pd ∧ (k = 1 ↔ pd.endTime = 0) ∧ (k = 0 ↔ pd.endTime ≠ 0)) ∧
      (p ∈ s.live → k = 1) ∧
      (∀ pre1 tid n post1, pre = pre1 ++ .destroy tid p n :: post1 → n ≠ 0 → k = 0)) := by
  refine ⟨?_, ?_, ?_⟩
  · intro hp
    simp [Scope.delete, hd, parentActive, hp]
  · intro p pd hp hne hpd
    refine ⟨?_, ?_⟩
    · intro he
      simp [Scope.delete, hd, parentActive, hp, Function.update_noteq hne, hpd, he]
    · intro he
      simp [Scope.delete, hd, parentActive, hp, Function.update_noteq hne, hpd, he]
  · intro pre s1 k p hpre hdel hp
    have hi : Inv s := Inv.of_init.of_run hpre
    obtain ⟨pd, hpd, -⟩ := hi.parent_ok data d hd p hp
    have hk := (delete_flag hi hdel hd).2 p pd hp hpd
    refine ⟨⟨pd, hpd, ?_, ?_⟩, ?_, ?_⟩
    · by_cases he : pd.endTime = 0
      · simp [hk, he]
      · simp [hk, he]
    · by_cases he : pd.endTime = 0
      · simp [hk, he]
      · simp [hk, he]
    · intro hlive
      obtain ⟨-, pd1, -, hpd1, he⟩ := hi.live_ok p hlive
      rw [hpd] at hpd1
      rw [← Option.some.inj hpd1] at he
      simp [hk, he]
    · intro pre1 tid n post1 hsplit hn
      subst hsplit
      obtain ⟨sa, ha, hrest⟩ := run_append hpre
      obtain ⟨sb, hb, hpost⟩ := run_cons hrest
      have hia : Inv sa := Inv.of_init.of_run ha
      obtain ⟨d0, -, hd1, -, hdead, -⟩ := step_heap_destroy hb
      obtain ⟨hfin, -⟩ := run_dead (hia.of_step hb) hpost hd1 hdead
      rw [hpd] at hfin
      have he : pd.endTime = n := by rw [Option.some.inj hfin]
      simp [hk, he, hn]

theorem parent_open_diagnostic_witness :
    ∃ s, run State.init [.construct 1 (.label "P") 5, .construct 2 (.copy (.obj 0)) 6,
        .construct 3 (.copy (.obj 0)) 7, .destroy 2 (.obj 1) 8, .destroy 1 (.obj 0) 9] =
        some s ∧
      s.heap (.obj 2) = some ⟨some (.obj 0), some (.tl 3), "", 1, 3, 7, 0⟩ ∧
      (∃ s1, Scope.delete s 3 (.obj 2) 10 = some (s1, 0)) ∧
      (∃ s0, run State.init [.construct 1 (.label "P") 5, .construct 2 (.copy (.obj 0)) 6,
          .construct 3 (.copy (.obj 0)) 7] = some s0 ∧
        s0.heap (.obj 1) = some ⟨some (.obj 0), some (.tl 2), "", 1, 2, 6, 0⟩ ∧
        ∃ s1, Scope.delete s0 2 (.obj 1) 8 = some (s1, 1)) ∧
      State.init.heap (.tl 4) = some (genesis 4) ∧
      ∃ s1, Scope.delete State.init 4 (.tl 4) 1 = some (s1, -1) :=
  ⟨_, rfl, rfl,
    ((parent_open_diagnostic _ 3 (.obj 2) 10 ⟨some (.obj 0), some (.tl 3), "", 1, 3, 7, 0⟩
      rfl).2.1 (.obj 0) ⟨some (.tl 1), some (.tl 1), "P", 0, 1, 5, 9⟩ rfl (by decide) rfl).2
      (by decide),
    ⟨_, rfl, rfl,
      ((parent_open_diagnostic _ 2 (.obj 1) 8 ⟨some (.obj 0), some (.tl 2), "", 1, 2, 6, 0⟩
        rfl).2.1 (.obj 0) ⟨some (.tl 1), some (.tl 1), "P", 0, 1, 5, 0⟩ rfl (by decide)
        rfl).1 rfl⟩,
    rfl, (parent_open_diagnostic State.init 4 (.tl 4) 1 (genesis 4) rfl).1 rfl⟩

/-! ## Parent chains -/

/-- In a state the program can reach the records with level -1 are the records
of the thread-local initialisers. -/
theorem level_neg_one_iff {s : State} (hi : Inv s) (hr : Rooted s) {a : Addr} {d : Data}
    (ha : s.heap a = some d) : d.level = -1 ↔ ∃ t, a = .tl t := by
  constructor
  · intro hl
    cases a with
    | tl t => exact ⟨t, rfl⟩
    | obj n =>
      obtain ⟨p, hp⟩ := hr.obj_parent n d ha
      obtain ⟨pd, hpd, hlev⟩ := hi.parent_ok _ d ha p hp
      have := hr.level_ge p pd hpd
      omega
  · rintro ⟨t, rfl⟩
    rw [hi.gen t] at ha
    rw [← Option.some.inj ha]
    rfl

/-- C17: after every run of constructions and destructions, in whatever order,
every thread's cursor points to a record; every record made by `Scope::Scope`,
so every record made through one of the four constructors, has a parent and a
level of at least 0; and the records with level -1 are exactly the records of
the thread-local initialisers. -/
theorem cursor_never_null (tr : List Event) (s : State)
    (hrun : run State.init tr = some s) :
    (∀ t, ∃ a d, s.current_thread_local t = some a ∧ s.heap a = some d) ∧
    (∀ n d, s.heap (.obj n) = some d →
      (∃ p pd, d.parent = some p ∧ s.heap p = some pd) ∧ 0 ≤ d.level) ∧
    (∀ pre tid c now post s0 s1 a, tr = pre ++ .construct tid c now :: post →
      run State.init pre = some s0 → new s0 tid c now = some (s1, a) →
      ∃ d p pd, s.heap a = some d ∧ d.parent = some p ∧ s.heap p = some pd ∧
        0 ≤ d.level) ∧
    (∀ a d, s.heap a = some d → (d.level = -1 ↔ ∃ t, a = .tl t)) := by
  have hi : Inv s := Inv.of_init.of_run hrun
  have hr : Rooted s := rooted_run Inv.of_init rooted_init hrun
  have hobj : ∀ n d, s.heap (.obj n) = some d →
      (∃ p pd, d.parent = some p ∧ s.heap p = some pd) ∧ 0 ≤ d.level := by
    intro n d hd
    obtain ⟨p, hp⟩ := hr.obj_parent n d hd
    obtain ⟨pd, hpd, hlev⟩ := hi.parent_ok _ d hd p hp
    have := hr.level_ge p pd hpd
    exact ⟨⟨p, pd, hp, hpd⟩, by omega⟩
  refine ⟨hi.cur_ok, hobj, ?_, fun a d ha => level_neg_one_iff hi hr ha⟩
  intro pre tid c now post s0 s1 a hsplit h0 hnew
  subst hsplit
  obtain ⟨s0a, h0a, hrest⟩ := run_append hrun
  rw [h0] at h0a
  have := Option.some.inj h0a
  subst this
  obtain ⟨s1a, h1a, hpost⟩ := run_cons hrest
  rw [step_of_new hnew] at h1a
  have := Option.some.inj h1a
  subst this
  have hi0 : Inv s0 := Inv.of_init.of_run h0
  obtain ⟨d1, -, hd1, -⟩ := new_record hi0 hnew
  obtain ⟨d, hd, -⟩ := run_heap_frame (hi0.of_new hnew) hpost hd1
  obtain ⟨p0, l0, hs0, -⟩ := new_eq_scope hnew
  obtain ⟨-, -, han, -⟩ := scope_new_spec hs0
  rw [han] at hd
  obtain ⟨⟨p, pd, hp, hpd⟩, hl⟩ := hobj _ d hd
  exact ⟨d, p, pd, han ▸ hd, hp, hpd, hl⟩

theorem cursor_never_null_witness :
    ∃ s, run State.init [.construct 0 (.label "A") 1, .construct 0 .default 2,
        .destroy 0 (.obj 0) 3, .construct 1 (.copy (.obj 1)) 4, .destroy 0 (.obj 1) 5,
        .destroy 0 (.obj 2) 6] = some s ∧
      s.current_thread_local 0 = some (.tl 1) ∧
      (∀ t, ∃ a d, s.current_thread_local t = some a ∧ s.heap a = some d) ∧
      (∀ n d, s.heap (.obj n) = some d →
        (∃ p pd, d.parent = some p ∧ s.heap p = some pd) ∧ 0 ≤ d.level) ∧
      (∀ a d, s.heap a = some d → (d.level = -1 ↔ ∃ t, a = .tl t)) :=
  ⟨_, rfl, rfl,
    (cursor_never_null [.construct 0 (.label "A") 1, .construct 0 .default 2,
        .destroy 0 (.obj 0) 3, .construct 1 (.copy (.obj 1)) 4, .destroy 0 (.obj 1) 5,
        .destroy 0 (.obj 2) 6] _ rfl).1,
    (cursor_never_null [.construct 0 (.label "A") 1, .construct 0 .default 2,
        .destroy 0 (.obj 0) 3, .construct 1 (.copy (.obj 1)) 4, .destroy 0 (.obj 1) 5,
        .destroy 0 (.obj 2) 6] _ rfl).2.1,
    (cursor_never_null [.construct 0 (.label "A") 1, .construct 0 .default 2,
        .destroy 0 (.obj 0) 3, .construct 1 (.copy (.obj 1)) 4, .destroy 0 (.obj 1) 5,
        .destroy 0 (.obj 2) 6] _ rfl).2.2.2⟩

theorem parentOf_eq {s : State} {a : Addr} {d : Data} (ha : s.heap a = some d) :
    parentOf s a = d.parent := by
  simp [parentOf, ha]

/-- Each step along the parents lowers the level by one. -/
theorem climb_level {s : State} (hi : Inv s) :
    ∀ (k : Nat) (a : Addr) (d : Data) (b : Addr), s.heap a = some d →
      climb s k a = some b → ∃ db, s.heap b = some db ∧ db.level = d.level - k := by
  intro k
  induction k with
  | zero =>
    intro a d b ha hc
    simp only [climb, Option.some.injEq] at hc
    subst hc
    exact ⟨d, ha, by simp⟩
  | succ k ih =>
    intro a d b ha hc
    simp only [climb, parentOf_eq ha] at hc
    cases hp : d.parent with
    | none => simp [hp] at hc
    | some p =>
      simp only [hp, Option.some_bind] at hc
      obtain ⟨pd, hpd, hl⟩ := hi.parent_ok a d ha p hp
      obtain ⟨db, hdb, hlb⟩ := ih p pd b hpd hc
      refine ⟨db, hdb, ?_⟩
      push_cast
      omega

/-- As long as fewer steps have been made than the level plus one, the chain of
parents goes on. -/
theorem climb_goes_on {s : State} (hi : Inv s) (hr : Rooted s) :
    ∀ (k : Nat) (a : Addr) (d : Data), s.heap a = some d → (k : Int) < d.level + 1 →
      ∃ b p, climb s k a = some b ∧ parentOf s b = some p := by
  intro k
  induction k with
  | zero =>
    intro a d ha hk
    cases a with
    | tl t =>
      have := (level_neg_one_iff hi hr ha).mpr ⟨t, rfl⟩
      simp only [Nat.cast_zero] at hk
      omega
    | obj n =>
      obtain ⟨p, hp⟩ := hr.obj_parent n d ha
      exact ⟨_, p, rfl, (parentOf_eq ha).trans hp⟩
  | succ k ih =>
    intro a d ha hk
    cases a with
    | tl t =>
      have := (level_neg_one_iff hi hr ha).mpr ⟨t, rfl⟩
      push_cast at hk
      omega
    | obj n =>
      obtain ⟨p, hp⟩ := hr.obj_parent n d ha
      obtain ⟨pd, hpd, hl⟩ := hi.parent_ok _ d ha p hp
      obtain ⟨b, q, hb, hq⟩ := ih p pd hpd (by push_cast at hk; omega)
      refine ⟨b, q, ?_, hq⟩
      simp only [climb, parentOf_eq ha, hp, Option.some_bind]
      exact hb

/-- After level plus one steps the chain of parents is at the record of a
thread-local initialiser. -/
theorem climb_reach {s : State} (hi : Inv s) (hr : Rooted s) :
    ∀ (n : Nat) (a : Addr) (d : Data), s.heap a = some d → d.level + 1 = (n : Int) →
      ∃ t, climb s n a = some (.tl t) := by
  intro n
  induction n with
  | zero =>
    intro a d ha hl
    obtain ⟨t, ht⟩ := (level_neg_one_iff hi hr ha).mp (by simp only [Nat.cast_zero] at hl; omega)
    exact ⟨t, by rw [ht]; rfl⟩
  | succ n ih =>
    intro a d ha hl
    cases a with
    | tl t =>
      have := (level_neg_one_iff hi hr ha).mpr ⟨t, rfl⟩
      push_cast at hl
      omega
    | obj m =>
      obtain ⟨p, hp⟩ := hr.obj_parent m d ha
      obtain ⟨pd, hpd, hlp⟩ := hi.parent_ok _ d ha p hp
      obtain ⟨t, ht⟩ := ih p pd hpd (by push_cast at hl; omega)
      refine ⟨t, ?_⟩
      simp only [climb, parentOf_eq ha, hp, Option.some_bind]
      exact ht

/-- C18: in a state the program can reach, for the record `d` at `a`: the level is
at least -1; following `parent` level + 1 times ends at the record of a
thread-local initialiser, which has no parent; every record met before that has
a parent; no longer chain of parents exists; and the chain never comes back to
`a`. -/
theorem parent_chain (tr : List Event) (s : State) (a : Addr) (d : Data)
    (hrun : run State.init tr = some s) (ha : s.heap a = some d) :
    -1 ≤ d.level ∧
    (∃ t, climb s (d.level + 1).toNat a = some (.tl t) ∧ parentOf s (.tl t) = none) ∧
    (∀ k, k < (d.level + 1).toNat → ∃ b p, climb s k a = some b ∧ parentOf s b = some p) ∧
    (∀ k, (d.level + 1).toNat < k → climb s k a = none) ∧
    (∀ k, 0 < k → climb s k a ≠ some a) := by
  have hi : Inv s := Inv.of_init.of_run hrun
  have hr : Rooted s := rooted_run Inv.of_init rooted_init hrun
  have hge := hr.level_ge a d ha
  have hcast : ((d.level + 1).toNat : Int) = d.level + 1 := Int.toNat_of_nonneg (by omega)
  refine ⟨hge, ?_, ?_, ?_, ?_⟩
  · obtain ⟨t, ht⟩ := climb_reach hi hr _ a d ha hcast.symm
    refine ⟨t, ht, ?_⟩
    rw [parentOf_eq (hi.gen t)]
    rfl
  · intro k hk
    exact climb_goes_on hi hr k a d ha (by omega)
  · intro k hk
    cases hc : climb s k a with
    | none => rfl
    | some b =>
      obtain ⟨db, hdb, hl⟩ := climb_level hi k a d b ha hc
      have := hr.level_ge b db hdb
      omega
  · intro k hk hc
    obtain ⟨db, hdb, hl⟩ := climb_level hi k a d a ha hc
    rw [ha] at hdb
    rw [← Option.some.inj hdb] at hl
    omega

theorem parent_chain_witness :
    ∃ s, run State.init [.construct 1 (.label "parentContext") 1,
        .construct 2 (.copyLabel (.obj 0) "childContext") 2,
        .construct 3 (.copyLabel (.obj 1) "childContext2") 3, .destroy 3 (.obj 2) 4] =
        some s ∧
      s.heap (.obj 2) = some ⟨some (.obj 1), some (.tl 3), "childContext2", 2, 3, 3, 4⟩ ∧
      climb s 3 (.obj 2) = some (.tl 1) ∧
      (∃ t, climb s (2 + 1 : Int).toNat (.obj 2) = some (.tl t) ∧
        parentOf s (.tl t) = none) ∧
      (∀ k, k < (2 + 1 : Int).toNat →
        ∃ b p, climb s k (.obj 2) = some b ∧ parentOf s b = some p) ∧
      (∀ k, (2 + 1 : Int).toNat < k → climb s k (.obj 2) = none) ∧
      (∀ k, 0 < k → climb s k (.obj 2) ≠ some (.obj 2)) :=
  ⟨_, rfl, rfl, rfl,
    (parent_chain [.construct 1 (.label "parentContext") 1,
        .construct 2 (.copyLabel (.obj 0) "childContext") 2,
        .construct 3 (.copyLabel (.obj 1) "childContext2") 3, .destroy 3 (.obj 2) 4] _
      (.obj 2) ⟨some (.obj 1), some (.tl 3), "childContext2", 2, 3, 3, 4⟩ rfl rfl).2⟩

/-- C19: in a state the program can reach, the record of thread `t`'s
thread-local initialiser is as the initialiser made it, with `startTime` and
`endTime` zero, and it is not the record of any object alive; so the
destruction of an object whose record has that record as parent returns the
flag 1. -/
theorem genesis_never_stamped (pre : List Event) (s : State) (t : Nat)
    (hpre : run State.init pre = some s) :
    (∃ g, s.heap (.tl t) = some g ∧ g = genesis t ∧ g.startTime = 0 ∧ g.endTime = 0) ∧
    Addr.tl t ∉ s.live ∧
    (∀ T h now s1 k d, delete s T h now = some (s1, k) → s.heap h = some d →
      d.parent = some (.tl t) → k = 1) := by
  have hi : Inv s := Inv.of_init.of_run hpre
  refine ⟨⟨genesis t, hi.gen t, rfl, rfl, rfl⟩, ?_, ?_⟩
  · intro hlive
    obtain ⟨n, -, hn, -⟩ := hi.live_ok _ hlive
    exact Addr.noConfusion hn
  · intro T h now s1 k d hdel hd hp
    have := (delete_flag hi hdel hd).2 (.tl t) (genesis t) hp (hi.gen t)
    rw [this]
    rfl

theorem genesis_never_stamped_witness :
    ∃ s, run State.init [.construct 5 (.label "A") 1, .construct 5 (.label "B") 2,
        .destroy 5 (.obj 1) 3] = some s ∧
      s.heap (.obj 0) = some ⟨some (.tl 5), some (.tl 5), "A", 0, 5, 1, 0⟩ ∧
      (∃ s1, delete s 5 (.obj 0) 4 = some (s1, 1)) ∧
      (∃ g, s.heap (.tl 5) = some g ∧ g = genesis 5 ∧ g.startTime = 0 ∧ g.endTime = 0) ∧
      Addr.tl 5 ∉ s.live ∧
      (∀ T h now s1 k d, delete s T h now = some (s1, k) → s.heap h = some d →
        d.parent = some (.tl 5) → k = 1) :=
  ⟨_, rfl, rfl, ⟨_, rfl⟩,
    genesis_never_stamped [.construct 5 (.label "A") 1, .construct 5 (.label "B") 2,
        .destroy 5 (.obj 1) 3] _ 5 rfl⟩

end TraceContext
